import Mathlib

/-!
Verification development for the process-output protocol of the agent and for the
container filesystem mount orchestrator.

Shallow embedding of

* `agent/lib/pm/input.go`   (`streamConsumer.consume`),
* `agent/lib/pm/args.go`    (`MapArgs`),
* `core0/containers/filesystem.go` (`container.getMetaDBTar`, `getMetaDB`,
  `mountPList`, `mount`, `name`, `hash`, `root`).

Go strings are embedded as `List Char`.  Calls into the operating system and
into the process manager are embedded as oracles of a `World` and every such
call is recorded in a trace of `Event`s.
-/

set_option autoImplicit false
set_option linter.dupNamespace false

/-! ## Part 1: `agent/lib/pm/input.go` -/

namespace Pm

/-- Go `string`, as a list of characters. -/
abbrev Str := List Char

/-- The pm `Message` handed to a `MessageHandler`.  `Cmd` is the consumer's command
(a pointer in the source, an identifier here). -/
structure Message where
  Cmd : Nat
  Level : Int
  Message : Str
deriving DecidableEq, Repr

/-- Errors of `strconv`. -/
inductive NumError where
  | SyntaxErr
  | RangeErr
deriving DecidableEq, Repr

/-- The constant `strconv.IntSize`: the width of `int` (a 64-bit platform). -/
def IntSize : Nat := 64

/-- The digit loop of `strconv.ParseUint` in base 10: `n` is the value so far,
`maxVal = 2^bitSize - 1`.  `cutoff = maxUint64/10 + 1`; `n1 < n` in the source is the
wrap-around of a 64-bit addition, here `n1 ≥ 2^64`. -/
def parseUintLoop (maxVal : Nat) : Nat → Str → Nat × Option NumError
  | n, [] => (n, none)
  | n, c :: cs =>
    if c.isDigit then
      let d := c.toNat - 48
      if n ≥ (2 ^ 64 - 1) / 10 + 1 then (maxVal, some NumError.RangeErr)
      else
        let n1 := n * 10 + d
        if n1 ≥ 2 ^ 64 ∨ n1 > maxVal then (maxVal, some NumError.RangeErr)
        else parseUintLoop maxVal n1 cs
    else (0, some NumError.SyntaxErr)

/-- Go `strconv.ParseUint(s, 10, bitSize)` with `1 ≤ bitSize ≤ 64`. -/
def ParseUint (s : Str) (bitSize : Nat) : Nat × Option NumError :=
  if s = [] then (0, some NumError.SyntaxErr)
  else parseUintLoop (2 ^ bitSize - 1) 0 s

/-- Go `strconv.ParseInt(s, 10, bitSize)`; `bitSize = 0` stands for `IntSize`. -/
def ParseInt (s : Str) (bitSize : Nat) : Int × Option NumError :=
  match s with
  | [] => (0, some NumError.SyntaxErr)
  | c :: cs =>
    let bits := if bitSize = 0 then IntSize else bitSize
    let neg := c = '-'
    let body := if c = '+' ∨ c = '-' then cs else c :: cs
    match ParseUint body bits with
    | (_, some NumError.SyntaxErr) => (0, some NumError.SyntaxErr)
    | (un, _) =>
      let cutoff : Nat := 2 ^ (bits - 1)
      if ¬ neg ∧ un ≥ cutoff then ((cutoff : Int) - 1, some NumError.RangeErr)
      else if neg ∧ un > cutoff then (-(cutoff : Int), some NumError.RangeErr)
      else (if neg then -(un : Int) else (un : Int), none)

/-- The result of `pmMsgPattern.FindStringSubmatch(line)` for
`pmMsgPattern = ^(\d+)(:{2,3})(.*)$`: the three groups, or `none` for `nil`.
`\d+` is greedy over ASCII digits, `:{2,3}` prefers three colons, and `.` does not
match a line feed. -/
def FindStringSubmatch (line : Str) : Option (Str × Str × Str) :=
  let ds := line.takeWhile Char.isDigit
  if ds = [] then none
  else
    match line.dropWhile Char.isDigit with
    | ':' :: ':' :: ':' :: t =>
      if t.all (fun c => c != '\n') then some (ds, [':', ':', ':'], t) else none
    | ':' :: ':' :: t =>
      if t.all (fun c => c != '\n') then some (ds, [':', ':'], t) else none
    | _ => none

/-- The two kinds of error a read returns: `io.EOF`, or any other error. -/
inductive ReadError where
  | EOF
  | other
deriving DecidableEq, Repr

/-- The `consumer.reader` behind the `bufio.Reader`: the bytes it still delivers and the
error it reports once they are exhausted. -/
structure Reader where
  data : Str
  fail : ReadError
deriving DecidableEq, Repr

/-- Splits at the first line feed: the text up to and including it and the rest,
or everything and `none` when there is no line feed. -/
def splitDelim : Str → Str × Option Str
  | [] => ([], none)
  | c :: cs =>
    if c = '\n' then (['\n'], some cs)
    else ((c :: (splitDelim cs).1), (splitDelim cs).2)

/-- Go `reader.ReadString('\n')`: the line read, the error, and the reader afterwards. -/
def Reader.ReadString (r : Reader) : Str × Option ReadError × Reader :=
  match splitDelim r.data with
  | (line, some rest) => (line, none, { r with data := rest })
  | (line, none) => (line, some r.fail, { r with data := [] })

/-- Go `strings.TrimRight(s, "\n")`. -/
def TrimRight (s : Str) : Str :=
  (s.reverse.dropWhile (fun c => c == '\n')).reverse

/-- The local variables of `consume`, with the calls made to `handler` so far. -/
structure Locals where
  level : Int
  message : Str
  multiline : Bool
  handled : List Message
deriving DecidableEq, Repr

/-- What a run of `consume` leaves behind: the handler calls in order, whether
`consumer.Signal` was signalled and closed, and the final locals. -/
structure Outcome where
  handled : List Message
  signalled : Bool
  level : Int
  message : Str
  multiline : Bool
deriving DecidableEq, Repr

/-- The outcome of a run that stops with the locals `st`. -/
def Locals.outcome (st : Locals) (signalled : Bool) : Outcome :=
  ⟨st.handled, signalled, st.level, st.message, st.multiline⟩

/-- Lines 50-94 of `consume`: what one trimmed line does to the locals. -/
def processLine (cmd : Nat) (defaultLevel : Int) (st : Locals) (line : Str) : Locals :=
  if line ≠ [] then
    if ¬ st.multiline then
      match FindStringSubmatch line with
      | none =>
        { st with handled := st.handled ++ [⟨cmd, defaultLevel, line⟩] }
      | some (m1, m2, m3) =>
        let level := (ParseInt m1 0).1
        let message := m3
        if m2 = [':', ':', ':'] then
          { st with level := level, message := message, multiline := true }
        else
          { st with level := level, message := message,
                    handled := st.handled ++ [⟨cmd, level, message⟩] }
    else
      if line = [':', ':', ':'] then
        { st with multiline := false,
                  handled := st.handled ++ [⟨cmd, st.level, st.message⟩] }
      else
        { st with message := st.message ++ '\n' :: line }
  else st

/-- The `for` loop of `consume`; `fuel` bounds the number of iterations and `none` means
that it ran out. -/
def consumeLoop (cmd : Nat) (defaultLevel : Int) : Nat → Reader → Locals → Option Outcome
  | 0, _, _ => none
  | fuel + 1, reader, st =>
    match reader.ReadString with
    | (_, some ReadError.other, _) => some (st.outcome false)
    | (line, err, reader1) =>
      let st1 := processLine cmd defaultLevel st (TrimRight line)
      if err = some ReadError.EOF then some (st1.outcome true)
      else consumeLoop cmd defaultLevel fuel reader1 st1

/-- Go `streamConsumer.consume(handler)` for a consumer with command `cmd`, default
level `defaultLevel` and the given reader.  Every iteration but the last consumes a
line feed, so `data.length + 1` iterations always suffice. -/
def consume (cmd : Nat) (defaultLevel : Int) (reader : Reader) : Option Outcome :=
  consumeLoop cmd defaultLevel (reader.data.length + 1) reader ⟨0, [], false, []⟩

/-- The number that a run of decimal digits denotes. -/
def decimalValue (s : Str) : Nat := s.foldl (fun n c => 10 * n + (c.toNat - 48)) 0

/-- A stream made of complete lines: every line followed by a line feed. -/
def joinLines (ls : List Str) : Str := ls.flatMap (fun l => l ++ ['\n'])

/-- The locals of `consume` before the first read. -/
def initLocals : Locals := ⟨0, [], false, []⟩

/-- The last iteration of `consume`, on the text `last` after the final line feed: at
`io.EOF` that text is processed and the completion is signalled, at another error it is
dropped and nothing is signalled. -/
def lastIteration (cmd : Nat) (defaultLevel : Int) (e : ReadError) (st : Locals)
    (last : Str) : Outcome :=
  match e with
  | ReadError.EOF => (processLine cmd defaultLevel st last).outcome true
  | ReadError.other => st.outcome false

/-- Two states of `consume` that behave alike from here on: `s` has made the handler
calls `h` before those of `t`, both are in the same mode, and inside a multiline message
they hold the same level and text (outside of one, `level` and `message` are overwritten
before they are read). -/
def Agree (h : List Message) (s t : Locals) : Prop :=
  s.handled = h ++ t.handled ∧ s.multiline = t.multiline ∧
    (t.multiline = true → s.level = t.level ∧ s.message = t.message)

/-! ## Part 2: `agent/lib/pm/args.go` -/

/-- The dynamic values a `map[string]interface{}` of arguments holds.  A `float64` is
kept as its bit pattern; slices are embedded by value. -/
inductive Value where
  | int (n : Int)
  | string (s : Str)
  | float (bits : Nat)
  | map (m : List (Str × Value))
  | array (a : List Value)
  | stringArray (a : List Str)
  | intArray (a : List Int)

/-- Go `m[key]` with the comma-ok form: the first binding of `key`. -/
def mapLookup (m : List (Str × Value)) (key : Str) : Option Value :=
  match m with
  | [] => none
  | (k, v) :: rest => if k = key then some v else mapLookup rest key

/-- Go `m[key] = value`: rebinds `key` where it is bound, binds it otherwise. -/
def mapStore (m : List (Str × Value)) (key : Str) (value : Value) : List (Str × Value) :=
  match m with
  | [] => [(key, value)]
  | (k, v) :: rest => if k = key then (k, value) :: rest else (k, v) :: mapStore rest key value

/-- The keys of a map. -/
def mapKeys (m : List (Str × Value)) : List Str := m.map (fun kv => kv.1)

/-- Go `MapArgs`. -/
structure MapArgs where
  data : List (Str × Value)

/-- Go `(*MapArgs).GetInt`; `none` is the run-time panic of a failed type assertion. -/
def MapArgs.GetInt (args : MapArgs) (key : Str) : Option Int :=
  match mapLookup args.data key with
  | some (Value.int n) => some n
  | some _ => none
  | none => some 0

/-- Go `(*MapArgs).GetString`; `none` is the panic of a failed type assertion. -/
def MapArgs.GetString (args : MapArgs) (key : Str) : Option Str :=
  match mapLookup args.data key with
  | some (Value.string s) => some s
  | some _ => none
  | none => some []

/-- Go `(*MapArgs).GetFloat`; `none` is the panic of a failed type assertion. -/
def MapArgs.GetFloat (args : MapArgs) (key : Str) : Option Nat :=
  match mapLookup args.data key with
  | some (Value.float b) => some b
  | some _ => none
  | none => some 0

/-- Go `(*MapArgs).GetMap`; `none` is the panic of a failed type assertion. -/
def MapArgs.GetMap (args : MapArgs) (key : Str) : Option (List (Str × Value)) :=
  match mapLookup args.data key with
  | some (Value.map m) => some m
  | some _ => none
  | none => some []

/-- Go `(*MapArgs).GetArray`; `none` is the panic of a failed type assertion. -/
def MapArgs.GetArray (args : MapArgs) (key : Str) : Option (List Value) :=
  match mapLookup args.data key with
  | some (Value.array a) => some a
  | some _ => none
  | none => some []

/-- Go `(*MapArgs).GetStringArray`; `none` is the panic of a failed type assertion. -/
def MapArgs.GetStringArray (args : MapArgs) (key : Str) : Option (List Str) :=
  match mapLookup args.data key with
  | some (Value.stringArray a) => some a
  | some _ => none
  | none => some []

/-- Go `(*MapArgs).GetIntArray`; `none` is the panic of a failed type assertion. -/
def MapArgs.GetIntArray (args : MapArgs) (key : Str) : Option (List Int) :=
  match mapLookup args.data key with
  | some (Value.intArray a) => some a
  | some _ => none
  | none => some []

/-- Go `(*MapArgs).Set`. -/
def MapArgs.Set (args : MapArgs) (key : Str) (value : Value) : MapArgs :=
  ⟨mapStore args.data key value⟩

/-- Go `l := make([]T, len(tv)); copy(l, tv)`: the first `len(tv)` elements of `tv`. -/
def copySlice {α : Type} (tv : List α) : List α := tv.take tv.length

/-- The body of the `range` loop of `Clone` for one binding `k, v`. -/
def cloneStep (deep : Bool) (data : List (Str × Value)) (kv : Str × Value) :
    List (Str × Value) :=
  if deep then
    match kv.2 with
    | Value.intArray tv => mapStore data kv.1 (Value.intArray (copySlice tv))
    | Value.stringArray tv => mapStore data kv.1 (Value.stringArray (copySlice tv))
    | _ => data
  else mapStore data kv.1 kv.2

/-- Go `(*MapArgs).Clone`. -/
def MapArgs.Clone (args : MapArgs) (deep : Bool) : MapArgs :=
  ⟨args.data.foldl (cloneStep deep) []⟩

end Pm

/-! ## Part 3: `core0/containers/filesystem.go` -/

namespace Containers

open Pm (Str)

/-- The constant `BackendBaseDir`. -/
def BackendBaseDir : Str := "/tmp".toList

/-- The constant `ContainerBaseRootDir`. -/
def ContainerBaseRootDir : Str := "/mnt".toList

/-! ### The Go library functions the file calls -/

/-- The decimal digits of `u`, most significant first, in front of `acc` (the loop of
`strconv` that `%d` formatting uses); `fuel` bounds the number of digits. -/
def formatDigits : Nat → Nat → Str → Str
  | 0, _, acc => acc
  | fuel + 1, u, acc =>
    if u ≥ 10 then formatDigits fuel (u / 10) (Nat.digitChar (u % 10) :: acc)
    else Nat.digitChar u :: acc

/-- Go `fmt.Sprintf("%d", i)`. -/
def formatInt (i : Int) : Str :=
  if i < 0 then '-' :: formatDigits (i.natAbs + 1) i.natAbs []
  else formatDigits (i.natAbs + 1) i.natAbs []

/-- One byte in the `%x` verb: two lower-case hexadecimal digits. -/
def hexByte (b : Nat) : Str := [Nat.digitChar (b / 16 % 16), Nat.digitChar (b % 16)]

/-- Go `fmt.Sprintf("%x", digest)` for a byte slice. -/
def hexEncode (digest : List Nat) : Str := digest.flatMap hexByte

/-- The elements of a path: the pieces between its slashes. -/
def splitSlash : Str → List Str
  | [] => [[]]
  | c :: cs =>
    if c = '/' then [] :: splitSlash cs
    else
      match splitSlash cs with
      | [] => [[c]]
      | h :: t => (c :: h) :: t

/-- Elements joined by single slashes. -/
def joinSlash : List Str → Str
  | [] => []
  | [e] => e
  | e :: es => e ++ '/' :: joinSlash es

/-- What `path.Clean` does with one path element, `out` being the elements kept so far:
an empty element and `.` are dropped; `..` removes the element before it when there is
one that is not itself `..`, is dropped at the root of a rooted path, and is kept
otherwise; any other element is kept. -/
def cleanStep (rooted : Bool) (out : List Str) (e : Str) : List Str :=
  if e = [] ∨ e = ['.'] then out
  else if e = ['.', '.'] then
    if out ≠ [] ∧ out.getLast? ≠ some ['.', '.'] then out.dropLast
    else if rooted then out
    else out ++ [e]
  else out ++ [e]

/-- Go `path.Clean`, element by element. -/
def Clean (path : Str) : Str :=
  if path = [] then ['.']
  else
    let rooted : Bool := path.head? = some '/'
    let out := (splitSlash path).foldl (cleanStep rooted) []
    let s := (if rooted then ['/'] else []) ++ joinSlash out
    if s = [] then ['.'] else s

/-- Go `path.Join`: empty elements are ignored, the rest is joined by slashes and cleaned;
the result is empty when every element is. -/
def Join (elem : List Str) : Str :=
  let used := elem.filter (fun e => e ≠ [])
  if used = [] then [] else Clean (joinSlash used)

/-- Go `path.Base`. -/
def Base (path : Str) : Str :=
  if path = [] then ['.']
  else
    let p := (path.reverse.dropWhile (fun c => c == '/')).reverse
    let b := (p.reverse.takeWhile (fun c => c != '/')).reverse
    if b = [] then ['/'] else b

/-- The loop of `path.Ext` over the bytes from the last one backwards; `acc` is the
text already passed. -/
def extLoop : Str → Str → Str
  | [], _ => []
  | c :: cs, acc =>
    if c = '/' then []
    else if c = '.' then '.' :: acc
    else extLoop cs (c :: acc)

/-- Go `path.Ext`. -/
def Ext (path : Str) : Str := extLoop path.reverse []

/-- Go `path.Dir`: the part up to the last slash, cleaned. -/
def Dir (path : Str) : Str :=
  Clean (path.reverse.dropWhile (fun c => c != '/')).reverse

/-! ### The world outside the process -/

deriving instance DecidableEq for Except

/-- The fields of a parsed `url.URL` that the file reads. -/
structure URL where
  Scheme : Str
  Path : Str
deriving DecidableEq, Repr

/-- One layer of a plist stream. -/
inductive Layer where
  | file (path : Str)
  | body (url : Str)
  | gzip
  | bzip2
deriving DecidableEq, Repr

/-- The calls that leave the process, in the order they are made. -/
inductive Event where
  | Stat (path : Str)
  | Open (path : Str)
  | HttpGet (url : Str)
  | GzipNewReader
  | Bzip2NewReader
  | Close (layer : Layer)
  | MkdirAll (path : Str)
  | RemoveAll (path : Str)
  | Create (path : Str)
  | Copy (path : Str)
  | FileClose (path : Str)
  | Mount (source : Str) (target : Str)
  | RunCmd (name : Str) (args : List Str)
deriving DecidableEq, Repr

/-- One header of a tar archive, as far as the file reads it. -/
structure TarEntry where
  Name : Str
  IsDir : Bool
deriving DecidableEq, Repr

/-- What `archive.Next()` yields: the entries, then `io.EOF` (`none`) or an error. -/
structure Archive where
  entries : List TarEntry
  broken : Option Str
deriving DecidableEq, Repr

/-- A hook of the mount command firing: the `MatchHook` on "mount starts", or the
`ExitHook` with its success flag. -/
inductive Firing where
  | Match
  | Exit (s : Bool)
deriving DecidableEq, Repr

/-- Everything outside the file.  An oracle for a call receives the trace of the calls
made before it; an error is `some` of its text and success is `none`. -/
structure World where
  /-- Go `url.Parse`. -/
  urlParse : Str → Except Str URL
  /-- The bytes of `md5.Sum`. -/
  md5 : Str → List Nat
  osStat : List Event → Str → Option Str
  osOpen : List Event → Str → Option Str
  httpGet : List Event → Str → Option Str
  gzipNewReader : List Event → Option Str
  /-- The archive that `tar.NewReader(reader)` reads for a source. -/
  tarArchive : List Event → Str → Archive
  osMkdirAll : List Event → Str → Option Str
  osCreate : List Event → Str → Option Str
  ioCopy : List Event → Str → Option Str
  syscallMount : List Event → Str → Str → Option Str
  /-- The value of `settings.Settings.Globals.Get("fuse_storage", ...)`. -/
  fuseStorage : Str
  /-- The hook firings that the process manager delivers for a command, in order. -/
  hooks : List Event → List Firing

/-- The arguments of a container that the file reads (`c.args`); `Mount` is listed in
the order in which `range` visits the map. -/
structure ContainerCreateArguments where
  Root : Str
  Mount : List (Str × Str)
  Storage : Str
deriving DecidableEq, Repr

/-- The fields of `container` that the file reads. -/
structure container where
  id : Int
  args : ContainerCreateArguments
deriving DecidableEq, Repr

/-- How a call ends: a `nil` error, an error with its text, a wait that never returns,
or a run-time fault. -/
inductive Ret where
  | nil
  | error (e : Str)
  | blocked
  | fault (what : Str)
deriving DecidableEq, Repr

/-! ### The functions of the file -/

/-- Go `(*container).name`. -/
def container.name (c : container) : Str := "container-".toList ++ formatInt c.id

/-- Go `(*container).hash`. -/
def container.hash (w : World) (_c : container) (src : Str) : Str := hexEncode (w.md5 src)

/-- Go `(*container).root`. -/
def container.root (c : container) : Str := Join [ContainerBaseRootDir, c.name]

/-- The directory `backend` of `mountPList`:
`path.Join(BackendBaseDir, c.name(), hash)`. -/
def container.backend (w : World) (c : container) (src : Str) : Str :=
  Join [BackendBaseDir, c.name, c.hash w src]

/-- The directory `db` of `getMetaDB`:
`path.Join(BackendBaseDir, c.name(), fmt.Sprintf("%s.db", c.hash(src)))`. -/
def container.db (w : World) (c : container) (src : Str) : Str :=
  Join [BackendBaseDir, c.name, c.hash w src ++ ".db".toList]

/-- A path lies inside a directory when it continues the directory and a slash. -/
def isInside (p dir : Str) : Prop := (dir ++ ['/']) <+: p

instance (p dir : Str) : Decidable (isInside p dir) := by
  unfold isInside; infer_instance

/-- Go `underLayingCloser`. -/
structure underLayingCloser where
  readers : List Layer
deriving DecidableEq, Repr

/-- Whether a layer is an `io.Closer`: the file, the response body and the gzip reader
are, the bzip2 reader is not. -/
def Layer.isCloser : Layer → Bool
  | Layer.bzip2 => false
  | _ => true

/-- Go `(*underLayingCloser).Close`: closes the layers from the last to the first. -/
def underLayingCloser.Close (u : underLayingCloser) (tr : List Event) : List Event :=
  tr ++ (u.readers.reverse.filter Layer.isCloser).map Event.Close

/-- Lines 87-106 of `getMetaDBTar`: the reader for the parsed source. -/
def openSource (w : World) (tr : List Event) (src : Str) (u : URL) :
    Except Str Layer × List Event :=
  if u.Scheme = "file".toList ∨ u.Scheme = [] then
    match w.osStat tr u.Path with
    | some e => (Except.error e, tr ++ [Event.Stat u.Path])
    | none =>
      match w.osOpen (tr ++ [Event.Stat u.Path]) u.Path with
      | some e => (Except.error e, tr ++ [Event.Stat u.Path, Event.Open u.Path])
      | none => (Except.ok (Layer.file u.Path), tr ++ [Event.Stat u.Path, Event.Open u.Path])
  else if u.Scheme = "http".toList ∨ u.Scheme = "https".toList then
    match w.httpGet tr src with
    | some e => (Except.error e, tr ++ [Event.HttpGet src])
    | none => (Except.ok (Layer.body src), tr ++ [Event.HttpGet src])
  else (Except.error ("invalid plist url (".toList ++ src ++ ")".toList), tr)

/-- Go `(*container).getMetaDBTar`: the stream or the error, and the trace afterwards. -/
def container.getMetaDBTar (w : World) (_c : container) (tr : List Event) (src : Str) :
    Except Str underLayingCloser × List Event :=
  match w.urlParse src with
  | Except.error e => (Except.error e, tr)
  | Except.ok u =>
    let base := Base u.Path
    match openSource w tr src u with
    | (Except.error e, tr1) => (Except.error e, tr1)
    | (Except.ok reader, tr1) =>
      let closer : underLayingCloser := ⟨[reader]⟩
      let ext := Ext base
      if ext = ".tgz".toList ∨ ext = ".gz".toList then
        match w.gzipNewReader tr1 with
        | some e => (Except.error e, closer.Close (tr1 ++ [Event.GzipNewReader]))
        | none => (Except.ok ⟨closer.readers ++ [Layer.gzip]⟩, tr1 ++ [Event.GzipNewReader])
      else if ext = ".tbz2".toList ∨ ext = ".bz2".toList then
        (Except.ok ⟨closer.readers ++ [Layer.bzip2]⟩, tr1 ++ [Event.Bzip2NewReader])
      else if ext = ".tar".toList then (Except.ok closer, tr1)
      else (Except.error ("unknown plist format ".toList ++ ext), tr1)

/-- The `for` loop of `getMetaDB` over the entries that `archive.Next()` yields: the
error it ends with (`none` for `io.EOF`) and the trace afterwards. -/
def extractLoop (w : World) (db : Str) (broken : Option Str) :
    List TarEntry → List Event → Option Str × List Event
  | [], tr => (broken, tr)
  | header :: rest, tr =>
    if header.IsDir then extractLoop w db broken rest tr
    else
      let base := Join [db, Dir header.Name]
      match w.osMkdirAll tr base with
      | some e => (some e, tr ++ [Event.MkdirAll base])
      | none =>
        let file := Join [db, header.Name]
        let tr1 := tr ++ [Event.MkdirAll base]
        match w.osCreate tr1 file with
        | some e => (some e, tr1 ++ [Event.Create file])
        | none =>
          let tr2 := tr1 ++ [Event.Create file]
          match w.ioCopy tr2 file with
          | some e => (some e, tr2 ++ [Event.Copy file, Event.FileClose file])
          | none => extractLoop w db broken rest (tr2 ++ [Event.Copy file, Event.FileClose file])

/-- Go `(*container).getMetaDB`: the directory `db` or the error, and the trace
afterwards; the deferred `reader.Close()` runs last. -/
def container.getMetaDB (w : World) (c : container) (tr : List Event) (src : Str) :
    Except Str Str × List Event :=
  match c.getMetaDBTar w tr src with
  | (Except.error e, tr1) => (Except.error e, tr1)
  | (Except.ok reader, tr1) =>
    let archive := w.tarArchive tr1 src
    let db := c.db w src
    match w.osMkdirAll tr1 db with
    | some e => (Except.error e, reader.Close (tr1 ++ [Event.MkdirAll db]))
    | none =>
      match extractLoop w db archive.broken archive.entries (tr1 ++ [Event.MkdirAll db]) with
      | (some e, tr2) => (Except.error e, reader.Close tr2)
      | (none, tr2) => (Except.ok db, reader.Close tr2)

/-- The variables `o`, `wg` and `err` of `mountPList` that the two hooks share:
whether the `sync.Once` has run, the counter of the `sync.WaitGroup`, the error to
return, how often `wg.Done` was called, and whether a `wg.Done` found the counter at
zero (a panic). -/
structure Gate where
  onceDone : Bool
  counter : Int
  err : Option Str
  doneCalls : Nat
  panicked : Bool
deriving DecidableEq, Repr

/-- Go `wg.Done()`. -/
def wgDone (g : Gate) : Gate :=
  if g.counter - 1 < 0 then { g with doneCalls := g.doneCalls + 1, panicked := true }
  else { g with counter := g.counter - 1, doneCalls := g.doneCalls + 1 }

/-- Go `o.Do(f)`: runs `f` on the first call only. -/
def onceDo (g : Gate) (f : Gate → Gate) : Gate :=
  if g.onceDone then g else { f g with onceDone := true }

/-- The action of the hook that fires (lines 220-235 of `mountPList`). -/
def fire (target : Str) (g : Gate) : Firing → Gate
  | Firing.Match => onceDo g wgDone
  | Firing.Exit s =>
    onceDo g (fun g1 =>
      wgDone (if ¬ s then
        { g1 with err := some ("upnormal exit of filesystem mount at '".toList ++ target
                                ++ "'".toList) }
      else g1))

/-- The shared variables when the command is run: `o` fresh, `wg.Add(1)` done, `err`
the `nil` left by `getMetaDB`. -/
def initGate : Gate := ⟨false, 1, none, 0, false⟩

/-- Go `wg.Wait()` while the hooks fire: the shared variables at the moment the counter
is zero, or `none` when the firings end before that. -/
def wgWait (target : Str) : Gate → List Firing → Option Gate
  | g, [] => if g.counter = 0 then some g else none
  | g, f :: fs => if g.counter = 0 then some g else wgWait target (fire target g f) fs

/-- What a call of `mountPList` leaves behind: how it ends, the trace, and the shared
variables once every firing is delivered (`none` when the command was not run). -/
structure MountResult where
  ret : Ret
  trace : List Event
  gate : Option Gate
deriving DecidableEq, Repr

/-- Go `(*container).mountPList`. -/
def container.mountPList (w : World) (c : container) (tr : List Event) (src target : Str) :
    MountResult :=
  match w.osMkdirAll tr target with
  | some e => ⟨Ret.error e, tr ++ [Event.MkdirAll target], none⟩
  | none =>
    let backend := c.backend w src
    let tr1 := tr ++ [Event.MkdirAll target, Event.RemoveAll backend, Event.MkdirAll backend]
    match c.getMetaDB w tr1 src with
    | (Except.error e, tr2) => ⟨Ret.error e, tr2, none⟩
    | (Except.ok db, tr2) =>
      let storageUrl := if c.args.Storage = [] then w.fuseStorage else c.args.Storage
      let args := ["-reset".toList, "-backend".toList, backend, "-meta".toList, db,
                   "-storage-url".toList, storageUrl, target]
      let tr3 := tr2 ++ [Event.RunCmd "g8ufs".toList args]
      let firings := w.hooks tr3
      let final := firings.foldl (fire target) initGate
      match wgWait target initGate firings with
      | none => ⟨Ret.blocked, tr3, some final⟩
      | some g =>
        match g.err with
        | none => ⟨Ret.nil, tr3, some final⟩
        | some e => ⟨Ret.error e, tr3, some final⟩

/-- The `range` loop of `mount` over the entries of `c.args.Mount`. -/
def mountLoop (w : World) (c : container) (root : Str) :
    List (Str × Str) → List Event → Ret × List Event
  | [], tr => (Ret.nil, tr)
  | (src, dst) :: rest, tr =>
    let target := Join [root, dst]
    match w.osMkdirAll tr target with
    | some e => (Ret.error ("mkdirAll(".toList ++ e ++ ")".toList), tr ++ [Event.MkdirAll target])
    | none =>
      let tr1 := tr ++ [Event.MkdirAll target]
      match w.urlParse src with
      | Except.error _ => (Ret.fault "nil pointer dereference".toList, tr1)
      | Except.ok u =>
        if u.Scheme = [] then
          match w.syscallMount tr1 src target with
          | some e =>
            (Ret.error ("mount-bind(".toList ++ e ++ ")".toList), tr1 ++ [Event.Mount src target])
          | none => mountLoop w c root rest (tr1 ++ [Event.Mount src target])
        else
          match c.mountPList w tr1 src target with
          | ⟨Ret.nil, tr2, _⟩ => mountLoop w c root rest tr2
          | ⟨Ret.error e, tr2, _⟩ =>
            (Ret.error ("mount-bind-plist(".toList ++ e ++ ")".toList), tr2)
          | ⟨r, tr2, _⟩ => (r, tr2)

/-- Go `(*container).mount`. -/
def container.mount (w : World) (c : container) : Ret × List Event :=
  let root := c.root
  let tr := [Event.RemoveAll root]
  match c.mountPList w tr c.args.Root root with
  | ⟨Ret.nil, tr1, _⟩ => mountLoop w c root c.args.Mount tr1
  | ⟨Ret.error e, tr1, _⟩ => (Ret.error ("mount-root-plist(".toList ++ e ++ ")".toList), tr1)
  | ⟨r, tr1, _⟩ => (r, tr1)

/-- A plain path element: not empty, not `.`, not `..`, and without a slash. -/
def Plain (e : Str) : Prop := e ≠ [] ∧ e ≠ ['.'] ∧ e ≠ ['.', '.'] ∧ '/' ∉ e

/-- A text that is empty or begins with a slash: what may follow a path element. -/
def Slashy (x : Str) : Prop := ∀ c, x.head? = some c → c = '/'

/-- The result that the first firing decides: `nil` for the match hook and for a
successful exit, the error naming the target for an abnormal exit. -/
def decidedBy (target : Str) : Firing → Ret
  | Firing.Match => Ret.nil
  | Firing.Exit true => Ret.nil
  | Firing.Exit false =>
    Ret.error ("upnormal exit of filesystem mount at '".toList ++ target ++ "'".toList)

/-- Whether an event is a bind-mount (`syscall.Mount`). -/
def Event.isMount : Event → Bool
  | Event.Mount _ _ => true
  | _ => false

/-! ### A concrete world for the examples -/

/-- A world for the examples: the sources `plist.xyz`, `plist.tgz`, `plist.bz2` and
`plist.tar` are paths without scheme, as `url.Parse` reads them, with their MD5 digests;
`:foo` is the source that `url.Parse` rejects (missing protocol scheme).  The files in
`missing` do not exist; every other call succeeds; `archive` is the content of every
plist and `firings` are the hooks that fire for every command. -/
def exampleWorld (missing : List Str) (archive : Archive) (firings : List Firing) : World where
  urlParse := fun src =>
    if src ∈ ["plist.xyz".toList, "plist.tgz".toList, "plist.bz2".toList, "plist.tar".toList]
    then Except.ok ⟨[], src⟩
    else Except.error ("parse ".toList ++ src ++ ": missing protocol scheme".toList)
  md5 := fun src =>
    if src = "plist.xyz".toList then
      [119, 132, 146, 182, 26, 65, 54, 6, 50, 248, 26, 251, 181, 206, 12, 72]
    else if src = "plist.tgz".toList then
      [146, 124, 110, 129, 23, 78, 149, 99, 54, 34, 43, 95, 238, 135, 151, 161]
    else if src = "plist.bz2".toList then
      [117, 102, 145, 216, 246, 150, 158, 91, 23, 123, 104, 166, 37, 62, 143, 58]
    else
      [197, 226, 249, 73, 184, 80, 180, 6, 0, 107, 155, 237, 217, 198, 226, 70]
  osStat := fun _ p =>
    if p ∈ missing then some ("stat ".toList ++ p ++ ": no such file or directory".toList)
    else none
  osOpen := fun _ _ => none
  httpGet := fun _ _ => none
  gzipNewReader := fun _ => none
  tarArchive := fun _ _ => archive
  osMkdirAll := fun _ _ => none
  osCreate := fun _ _ => none
  ioCopy := fun _ _ => none
  syscallMount := fun _ _ _ => none
  fuseStorage := "ardb://home.maxux.net:26379".toList
  hooks := fun _ => firings

end Containers

/-! ## Theorems, part 1: the leveled stream parser -/

namespace Pm

theorem valueFrom_ge (cs : Str) (n : Nat) :
    n ≤ cs.foldl (fun n c => 10 * n + (c.toNat - 48)) n := by
  induction cs generalizing n with
  | nil => simp
  | cons c cs ih =>
    simp only [List.foldl_cons]
    exact le_trans (by omega) (ih _)

theorem parseUintLoop_digits (maxVal : Nat) (hmax : maxVal < 2 ^ 64) (cs : Str) (n : Nat)
    (hd : ∀ c ∈ cs, c.isDigit = true)
    (hv : cs.foldl (fun n c => 10 * n + (c.toNat - 48)) n ≤ maxVal) :
    parseUintLoop maxVal n cs = (cs.foldl (fun n c => 10 * n + (c.toNat - 48)) n, none) := by
  induction cs generalizing n with
  | nil => simp [parseUintLoop]
  | cons c cs ih =>
    have hc : c.isDigit = true := hd c (List.mem_cons_self _ _)
    have hrest : ∀ c ∈ cs, c.isDigit = true := fun x hx => hd x (List.mem_cons_of_mem _ hx)
    simp only [List.foldl_cons] at hv ⊢
    have hge := valueFrom_ge cs (10 * n + (c.toNat - 48))
    have h1 : 10 * n + (c.toNat - 48) ≤ maxVal := le_trans hge hv
    have hcut : ¬ (n ≥ (2 ^ 64 - 1) / 10 + 1) := by
      norm_num at hmax ⊢
      omega
    have hn1 : ¬ (n * 10 + (c.toNat - 48) ≥ 2 ^ 64 ∨ n * 10 + (c.toNat - 48) > maxVal) := by
      norm_num at hmax ⊢
      omega
    have e : n * 10 = 10 * n := Nat.mul_comm _ _
    rw [parseUintLoop]
    simp only [hc, if_true, hcut, if_false, hn1]
    rw [e]
    exact ih _ hrest hv

theorem ParseInt_digits (ds : Str) (hne : ds ≠ []) (hd : ∀ c ∈ ds, c.isDigit = true)
    (hv : decimalValue ds < 2 ^ 63) : ParseInt ds 0 = ((decimalValue ds : Int), none) := by
  cases ds with
  | nil => exact absurd rfl hne
  | cons c cs =>
    have hc : c.isDigit = true := hd c (List.mem_cons_self _ _)
    have hplus : c ≠ '+' := by
      intro h; rw [h] at hc; exact absurd hc (by decide)
    have hminus : c ≠ '-' := by
      intro h; rw [h] at hc; exact absurd hc (by decide)
    have hloop := parseUintLoop_digits (2 ^ 64 - 1) (by norm_num) (c :: cs) 0 hd
      (by unfold decimalValue at hv; norm_num at hv ⊢; omega)
    have hU : ParseUint (c :: cs) 64 = (decimalValue (c :: cs), none) := by
      unfold ParseUint
      simp only [reduceCtorEq, if_false]
      exact hloop
    unfold ParseInt
    simp only [IntSize, if_true, hplus, hminus, or_self, if_false, hU]
    have h63 : decimalValue (c :: cs) < 9223372036854775808 := by
      norm_num at hv; exact hv
    simp [h63]

theorem takeWhile_digits_colon (ds rest : Str) (hd : ∀ c ∈ ds, c.isDigit = true) :
    (ds ++ ':' :: rest).takeWhile Char.isDigit = ds ∧
    (ds ++ ':' :: rest).dropWhile Char.isDigit = ':' :: rest := by
  induction ds with
  | nil =>
    have h : Char.isDigit ':' = false := by decide
    simp [List.takeWhile, List.dropWhile, h]
  | cons c cs ih =>
    have hc : c.isDigit = true := hd c (List.mem_cons_self _ _)
    have ih1 := ih (fun x hx => hd x (List.mem_cons_of_mem _ hx))
    simp [List.takeWhile, List.dropWhile, hc, ih1.1, ih1.2]

theorem all_ne_newline (t : Str) (h : '\n' ∉ t) : t.all (fun c => c != '\n') = true := by
  rw [List.all_eq_true]
  intro c hc
  have : c ≠ '\n' := fun e => h (e ▸ hc)
  simpa using this

theorem FindStringSubmatch_two (ds text : Str) (hne : ds ≠ [])
    (hd : ∀ c ∈ ds, c.isDigit = true) (hnl : '\n' ∉ text) (hcolon : text.head? ≠ some ':') :
    FindStringSubmatch (ds ++ ':' :: ':' :: text) = some (ds, [':', ':'], text) := by
  have h := takeWhile_digits_colon ds (':' :: text) hd
  unfold FindStringSubmatch
  simp only [h.1, h.2, hne, if_false]
  cases text with
  | nil => simp
  | cons c t =>
    have hc : c ≠ ':' := by
      intro e; apply hcolon; simp [e]
    have hall := all_ne_newline (c :: t) hnl
    split
    · rename_i t2 heq
      simp only [List.cons.injEq, true_and] at heq
      exact absurd heq.1 hc
    · rename_i t2 heq
      simp only [List.cons.injEq, true_and] at heq
      subst heq
      simp only [hall, if_true]
    · rename_i h1 h2
      exact absurd rfl (h2 (c :: t))

theorem FindStringSubmatch_three (ds text : Str) (hne : ds ≠ [])
    (hd : ∀ c ∈ ds, c.isDigit = true) (hnl : '\n' ∉ text) :
    FindStringSubmatch (ds ++ ':' :: ':' :: ':' :: text) = some (ds, [':', ':', ':'], text) := by
  have h := takeWhile_digits_colon ds (':' :: ':' :: text) hd
  have hall := all_ne_newline text hnl
  unfold FindStringSubmatch
  simp only [h.1, h.2, hne, if_false, hall, if_true]

theorem splitDelim_line (l rest : Str) (h : '\n' ∉ l) :
    splitDelim (l ++ '\n' :: rest) = (l ++ ['\n'], some rest) := by
  induction l with
  | nil => simp [splitDelim]
  | cons c cs ih =>
    have hc : c ≠ '\n' := fun e => h (by simp [e])
    have hcs : '\n' ∉ cs := fun m => h (List.mem_cons_of_mem _ m)
    simp [splitDelim, hc, ih hcs]

theorem splitDelim_last (l : Str) (h : '\n' ∉ l) : splitDelim l = (l, none) := by
  induction l with
  | nil => simp [splitDelim]
  | cons c cs ih =>
    have hc : c ≠ '\n' := fun e => h (by simp [e])
    have hcs : '\n' ∉ cs := fun m => h (List.mem_cons_of_mem _ m)
    simp [splitDelim, hc, ih hcs]

theorem dropWhile_newline_self (l : Str) (h : '\n' ∉ l) :
    l.dropWhile (fun c => c == '\n') = l := by
  cases l with
  | nil => rfl
  | cons c cs =>
    have hc : (c == '\n') = false := by
      have : c ≠ '\n' := fun e => h (by simp [e])
      simpa using this
    simp [List.dropWhile, hc]

theorem TrimRight_self (l : Str) (h : '\n' ∉ l) : TrimRight l = l := by
  unfold TrimRight
  rw [dropWhile_newline_self _ (by simpa using h)]
  simp

theorem TrimRight_line (l : Str) (h : '\n' ∉ l) : TrimRight (l ++ ['\n']) = l := by
  unfold TrimRight
  simp only [List.reverse_append, List.reverse_cons, List.reverse_nil, List.nil_append,
    List.singleton_append, List.dropWhile_cons, beq_self_eq_true, if_true]
  rw [dropWhile_newline_self _ (by simpa using h)]
  simp

theorem consumeLoop_line (cmd : Nat) (dl : Int) (fuel : Nat) (l rest : Str) (e : ReadError)
    (st : Locals) (h : '\n' ∉ l) :
    consumeLoop cmd dl (fuel + 1) ⟨l ++ '\n' :: rest, e⟩ st
      = consumeLoop cmd dl fuel ⟨rest, e⟩ (processLine cmd dl st l) := by
  rw [consumeLoop]
  simp only [Reader.ReadString, splitDelim_line l rest h, TrimRight_line l h]
  simp

theorem consumeLoop_last (cmd : Nat) (dl : Int) (fuel : Nat) (l : Str) (e : ReadError)
    (st : Locals) (h : '\n' ∉ l) :
    consumeLoop cmd dl (fuel + 1) ⟨l, e⟩ st = some (lastIteration cmd dl e st l) := by
  rw [consumeLoop]
  cases e <;>
    simp [Reader.ReadString, splitDelim_last l h, TrimRight_self l h, lastIteration]

theorem consumeLoop_lines (cmd : Nat) (dl : Int) (ls : List Str) (fuel : Nat) (rest : Str)
    (e : ReadError) (st : Locals) (h : ∀ l ∈ ls, '\n' ∉ l) :
    consumeLoop cmd dl (ls.length + fuel) ⟨joinLines ls ++ rest, e⟩ st
      = consumeLoop cmd dl fuel ⟨rest, e⟩ (ls.foldl (processLine cmd dl) st) := by
  induction ls generalizing st with
  | nil => simp [joinLines]
  | cons l ls ih =>
    have hl : '\n' ∉ l := h l (List.mem_cons_self _ _)
    have hls : ∀ x ∈ ls, '\n' ∉ x := fun x hx => h x (List.mem_cons_of_mem _ hx)
    have e1 : (l :: ls).length + fuel = (ls.length + fuel) + 1 := by
      simp only [List.length_cons]; omega
    have e2 : joinLines (l :: ls) ++ rest = l ++ '\n' :: (joinLines ls ++ rest) := by
      simp [joinLines]
    rw [e1, e2, consumeLoop_line cmd dl _ l _ e st hl, ih _ hls]
    rfl

theorem joinLines_length (ls : List Str) : ls.length ≤ (joinLines ls).length := by
  induction ls with
  | nil => simp [joinLines]
  | cons l ls ih =>
    have : joinLines (l :: ls) = l ++ '\n' :: joinLines ls := by simp [joinLines]
    rw [this]
    simp only [List.length_cons, List.length_append]
    omega

/-- Closed form of `consume` on a stream given by its lines: it always returns, with the
outcome of the last iteration after the complete lines were processed in order. -/
theorem consume_lines (cmd : Nat) (dl : Int) (ls : List Str) (last : Str) (e : ReadError)
    (h : ∀ l ∈ ls, '\n' ∉ l) (hlast : '\n' ∉ last) :
    consume cmd dl ⟨joinLines ls ++ last, e⟩
      = some (lastIteration cmd dl e (ls.foldl (processLine cmd dl) initLocals) last) := by
  unfold consume
  have hlen := joinLines_length ls
  obtain ⟨k, hk⟩ : ∃ k, (joinLines ls ++ last).length + 1 = ls.length + (k + 1) :=
    ⟨(joinLines ls ++ last).length - ls.length, by
      simp only [List.length_append]; omega⟩
  show consumeLoop cmd dl ((joinLines ls ++ last).length + 1) _ initLocals = _
  rw [hk, consumeLoop_lines cmd dl ls (k + 1) last e _ h, consumeLoop_last cmd dl k last e _ hlast]

/-- Every stream is a sequence of complete lines followed by a text without line feed. -/
theorem exists_lines (data : Str) :
    ∃ ls last, data = joinLines ls ++ last ∧ (∀ l ∈ ls, '\n' ∉ l) ∧ '\n' ∉ last := by
  induction data with
  | nil => exact ⟨[], [], by simp [joinLines], by simp, by simp⟩
  | cons c cs ih =>
    obtain ⟨ls, last, h1, h2, h3⟩ := ih
    by_cases hc : c = '\n'
    · refine ⟨[] :: ls, last, ?_, ?_, h3⟩
      · simp [joinLines, hc, h1]
      · intro l hl
        rcases List.mem_cons.mp hl with rfl | hl
        · simp
        · exact h2 l hl
    · cases ls with
      | nil =>
        refine ⟨[], c :: last, ?_, by simp, ?_⟩
        · simp [joinLines] at h1 ⊢; exact h1
        · intro hm
          rcases List.mem_cons.mp hm with e | hm
          · exact hc e.symm
          · exact h3 hm
      | cons l ls =>
        refine ⟨(c :: l) :: ls, last, ?_, ?_, h3⟩
        · simp [joinLines] at h1 ⊢; exact h1
        · intro x hx
          rcases List.mem_cons.mp hx with rfl | hx
          · intro hm
            rcases List.mem_cons.mp hm with e | hm
            · exact hc e.symm
            · exact h2 l (List.mem_cons_self _ _) hm
          · exact h2 x (List.mem_cons_of_mem _ hx)

/-- Total correctness of the loop bound: `consume` returns an outcome on every reader. -/
theorem consume_returns (cmd : Nat) (dl : Int) (r : Reader) :
    ∃ o, consume cmd dl r = some o := by
  obtain ⟨ls, last, h1, h2, h3⟩ := exists_lines r.data
  cases r with
  | mk data fail =>
    simp only at h1
    subst h1
    exact ⟨_, consume_lines cmd dl ls last fail h2 h3⟩

theorem Agree_processLine (cmd : Nat) (dl : Int) (h : List Message) (s t : Locals) (l : Str)
    (hA : Agree h s t) : Agree h (processLine cmd dl s l) (processLine cmd dl t l) := by
  obtain ⟨h1, h2, h3⟩ := hA
  unfold processLine
  by_cases hl : l = []
  · simp only [hl, ne_eq, not_true_eq_false, if_false]
    exact ⟨h1, h2, h3⟩
  · simp only [ne_eq, hl, not_false_eq_true, if_true]
    cases ht : t.multiline with
    | false =>
      rw [ht] at h2
      simp only [h2, Bool.false_eq_true, not_false_eq_true, if_true]
      cases FindStringSubmatch l with
      | none =>
        refine ⟨?_, ?_, ?_⟩
        · simp [h1]
        · simp [h2, ht]
        · simp [ht]
      | some m =>
        obtain ⟨m1, m2, m3⟩ := m
        by_cases hm : m2 = [':', ':', ':']
        · simp only [hm, if_true]
          exact ⟨h1, rfl, fun _ => ⟨rfl, rfl⟩⟩
        · simp only [hm, if_false]
          refine ⟨?_, ?_, ?_⟩
          · simp [h1]
          · simp [h2, ht]
          · simp [ht]
    | true =>
      rw [ht] at h2
      obtain ⟨h4, h5⟩ := h3 ht
      simp only [h2, not_true_eq_false, if_false]
      by_cases hc : l = [':', ':', ':']
      · simp only [hc, if_true]
        refine ⟨?_, rfl, ?_⟩
        · simp [h1, h4, h5]
        · simp
      · simp only [hc, if_false]
        refine ⟨h1, ?_, ?_⟩
        · simp [h2, ht]
        · intro _
          simp [h4, h5]

theorem Agree_foldl (cmd : Nat) (dl : Int) (h : List Message) (ls : List Str) (s t : Locals)
    (hA : Agree h s t) :
    Agree h (ls.foldl (processLine cmd dl) s) (ls.foldl (processLine cmd dl) t) := by
  induction ls generalizing s t with
  | nil => exact hA
  | cons l ls ih => exact ih _ _ (Agree_processLine cmd dl h s t l hA)

theorem Agree_lastIteration (cmd : Nat) (dl : Int) (h : List Message) (e : ReadError)
    (s t : Locals) (last : Str) (hA : Agree h s t) :
    (lastIteration cmd dl e s last).handled = h ++ (lastIteration cmd dl e t last).handled ∧
    (lastIteration cmd dl e s last).signalled = (lastIteration cmd dl e t last).signalled ∧
    (lastIteration cmd dl e s last).multiline = (lastIteration cmd dl e t last).multiline := by
  cases e with
  | EOF =>
    have hB := Agree_processLine cmd dl h s t last hA
    exact ⟨hB.1, rfl, hB.2.1⟩
  | other => exact ⟨hA.1, rfl, hA.2.1⟩

theorem processLine_nil (cmd : Nat) (dl : Int) (st : Locals) : processLine cmd dl st [] = st := by
  simp [processLine]

/-- The outcome of the prefix `joinLines pre` read to `io.EOF` shows the locals after
its lines. -/
theorem consume_pre (cmd : Nat) (dl : Int) (pre : List Str) (hpre : ∀ l ∈ pre, '\n' ∉ l) :
    consume cmd dl ⟨joinLines pre, ReadError.EOF⟩
      = some ((pre.foldl (processLine cmd dl) initLocals).outcome true) := by
  have h := consume_lines cmd dl pre [] ReadError.EOF hpre (by simp)
  simp only [List.append_nil] at h
  rw [h]
  simp [lastIteration, processLine_nil]

theorem processLine_single (cmd : Nat) (dl : Int) (st : Locals) (ds text : Str)
    (hmode : st.multiline = false) (hne : ds ≠ []) (hd : ∀ c ∈ ds, c.isDigit = true)
    (hnl : '\n' ∉ text) (hcolon : text.head? ≠ some ':') (hv : decimalValue ds < 2 ^ 63) :
    processLine cmd dl st (ds ++ ':' :: ':' :: text)
      = { st with level := (decimalValue ds : Int), message := text,
                  handled := st.handled ++ [⟨cmd, (decimalValue ds : Int), text⟩] } := by
  have hl : ds ++ ':' :: ':' :: text ≠ [] := by simp
  unfold processLine
  simp only [ne_eq, hl, not_false_eq_true, if_true, hmode, Bool.false_eq_true,
    FindStringSubmatch_two ds text hne hd hnl hcolon, ParseInt_digits ds hne hd hv]
  simp

theorem processLine_open (cmd : Nat) (dl : Int) (st : Locals) (ds text : Str)
    (hmode : st.multiline = false) (hne : ds ≠ []) (hd : ∀ c ∈ ds, c.isDigit = true)
    (hnl : '\n' ∉ text) :
    processLine cmd dl st (ds ++ ':' :: ':' :: ':' :: text)
      = { st with level := (ParseInt ds 0).1, message := text, multiline := true } := by
  have hl : ds ++ ':' :: ':' :: ':' :: text ≠ [] := by simp
  unfold processLine
  simp only [ne_eq, hl, not_false_eq_true, if_true, hmode, Bool.false_eq_true,
    FindStringSubmatch_three ds text hne hd hnl]

theorem foldl_body (cmd : Nat) (dl : Int) (body : List Str) (s : Locals)
    (hmode : s.multiline = true) (hbody : ∀ l ∈ body, l ≠ [] ∧ l ≠ [':', ':', ':']) :
    body.foldl (processLine cmd dl) s
      = { s with message := s.message ++ body.flatMap (fun l => '\n' :: l) } := by
  induction body generalizing s with
  | nil => simp
  | cons l ls ih =>
    obtain ⟨h1, h2⟩ := hbody l (List.mem_cons_self _ _)
    have hstep : processLine cmd dl s l = { s with message := s.message ++ '\n' :: l } := by
      unfold processLine
      simp [h1, h2, hmode]
    have h3 := ih ⟨s.level, s.message ++ '\n' :: l, s.multiline, s.handled⟩ hmode
      (fun x hx => hbody x (List.mem_cons_of_mem _ hx))
    rw [List.foldl_cons, hstep, h3]
    simp

theorem processLine_unterminated (cmd : Nat) (dl : Int) (s : Locals) (l : Str)
    (hmode : s.multiline = true) (hl : l ≠ [':', ':', ':']) :
    (processLine cmd dl s l).multiline = true ∧ (processLine cmd dl s l).handled = s.handled := by
  unfold processLine
  by_cases h1 : l = []
  · simp [h1, hmode]
  · simp [h1, hl, hmode]

theorem foldl_unterminated (cmd : Nat) (dl : Int) (body : List Str) (s : Locals)
    (hmode : s.multiline = true) (hbody : ∀ l ∈ body, l ≠ [':', ':', ':']) :
    (body.foldl (processLine cmd dl) s).multiline = true ∧
    (body.foldl (processLine cmd dl) s).handled = s.handled := by
  induction body generalizing s with
  | nil => exact ⟨hmode, rfl⟩
  | cons l ls ih =>
    have h1 := processLine_unterminated cmd dl s l hmode (hbody l (List.mem_cons_self _ _))
    have h2 := ih _ h1.1 (fun x hx => hbody x (List.mem_cons_of_mem _ hx))
    rw [List.foldl_cons]
    exact ⟨h2.1, h2.2.trans h1.2⟩

/-- What follows a line that leaves `consume` outside a multiline message with the
handler calls `h` made: the outcome is that of a fresh run on the rest, after `h`. -/
theorem consume_after (cmd : Nat) (dl : Int) (front : List Str) (line tail after : Str)
    (e : ReadError) (h : List Message) (hfront : ∀ l ∈ front, '\n' ∉ l) (hline : '\n' ∉ line)
    (hst : Agree h (processLine cmd dl (front.foldl (processLine cmd dl) initLocals) line)
      initLocals)
    (htail : tail = '\n' :: after ∨ (tail = [] ∧ after = [] ∧ e = ReadError.EOF)) :
    ∃ b r, consume cmd dl ⟨after, e⟩ = some b ∧
      consume cmd dl ⟨joinLines front ++ line ++ tail, e⟩ = some r ∧
      r.handled = h ++ b.handled ∧ r.signalled = b.signalled ∧ r.multiline = b.multiline := by
  rcases htail with ht | ⟨ht, ha, he⟩
  · obtain ⟨qs, last, hq1, hq2, hq3⟩ := exists_lines after
    have hb := consume_lines cmd dl qs last e hq2 hq3
    rw [← hq1] at hb
    have hwhole : joinLines front ++ line ++ tail = joinLines (front ++ line :: qs) ++ last := by
      rw [ht, hq1]
      simp [joinLines]
    have hr := consume_lines cmd dl (front ++ line :: qs) last e (by
      intro l hl
      rcases List.mem_append.mp hl with hl | hl
      · exact hfront l hl
      · rcases List.mem_cons.mp hl with rfl | hl
        · exact hline
        · exact hq2 l hl) hq3
    rw [← hwhole, List.foldl_append, List.foldl_cons] at hr
    have hA := Agree_lastIteration cmd dl h e _ _ last (Agree_foldl cmd dl h qs _ _ hst)
    exact ⟨_, _, hb, hr, hA.1, hA.2.1, hA.2.2⟩
  · subst ha he
    have hb := consume_lines cmd dl [] [] ReadError.EOF (by simp) (by simp)
    simp only [joinLines, List.flatMap_nil, List.append_nil] at hb
    have hr := consume_lines cmd dl front line ReadError.EOF hfront hline
    have hwhole : joinLines front ++ line ++ tail = joinLines front ++ line := by
      rw [ht]; simp
    rw [← hwhole] at hr
    refine ⟨_, _, hb, hr, ?_, ?_, ?_⟩
    · simp only [lastIteration, Locals.outcome, processLine_nil, List.foldl_nil]
      simpa [initLocals] using hst.1
    · rfl
    · simp only [lastIteration, Locals.outcome, processLine_nil, List.foldl_nil]
      exact hst.2.1

/-- C1 (amended): outside a multiline message, a line `N::text` whose number fits an
`int` (`N < 2^63`) and whose text does not begin with a colon makes `consume` call the
handler exactly once for that line, with `Level = N` and `Message = text`: the calls are
those for the lines before it, then this one, then those of a fresh run on what follows. -/
theorem consume_single_line (cmd : Nat) (dl : Int) (pre : List Str)
    (ds text tail after : Str) (e : ReadError)
    (hpre : ∀ l ∈ pre, '\n' ∉ l)
    (hmode : (consume cmd dl ⟨joinLines pre, ReadError.EOF⟩).map (fun o => o.multiline)
      = some false)
    (hne : ds ≠ []) (hd : ∀ c ∈ ds, c.isDigit = true) (hv : decimalValue ds < 2 ^ 63)
    (hnl : '\n' ∉ text) (hcolon : text.head? ≠ some ':')
    (htail : tail = '\n' :: after ∨ (tail = [] ∧ after = [] ∧ e = ReadError.EOF)) :
    ∃ a b r, consume cmd dl ⟨joinLines pre, ReadError.EOF⟩ = some a ∧
      consume cmd dl ⟨after, e⟩ = some b ∧
      consume cmd dl ⟨joinLines pre ++ (ds ++ "::".toList ++ text) ++ tail, e⟩ = some r ∧
      r.handled = a.handled ++ ⟨cmd, (decimalValue ds : Int), text⟩ :: b.handled ∧
      r.signalled = b.signalled ∧ r.multiline = b.multiline := by
  have hp := consume_pre cmd dl pre hpre
  rw [hp] at hmode
  simp only [Option.map_some', Locals.outcome, Option.some.injEq] at hmode
  have hline : '\n' ∉ ds ++ ':' :: ':' :: text := by
    intro hm
    rcases List.mem_append.mp hm with hm | hm
    · exact absurd (hd _ hm) (by decide)
    · simp only [List.mem_cons] at hm
      rcases hm with hm | hm | hm
      · exact absurd hm (by decide)
      · exact absurd hm (by decide)
      · exact hnl hm
  have hstep := processLine_single cmd dl _ ds text hmode hne hd hnl hcolon hv
  obtain ⟨b, r, hb, hr, h1, h2, h3⟩ := consume_after cmd dl pre (ds ++ ':' :: ':' :: text)
    tail after e
    ((pre.foldl (processLine cmd dl) initLocals).handled ++ [⟨cmd, (decimalValue ds : Int), text⟩])
    hpre hline (by
      rw [hstep]
      exact ⟨by simp [initLocals], hmode, by simp [initLocals]⟩) htail
  refine ⟨_, b, r, hp, hb, ?_, ?_, h2, h3⟩
  · have : ds ++ "::".toList ++ text = ds ++ ':' :: ':' :: text := by
      show ds ++ [':', ':'] ++ text = _
      simp
    rw [this]; exact hr
  · rw [h1]; simp [Locals.outcome]

theorem not_mem_opening (ds text : Str) (hd : ∀ c ∈ ds, c.isDigit = true) (hnl : '\n' ∉ text) :
    '\n' ∉ ds ++ ':' :: ':' :: ':' :: text := by
  intro hm
  rcases List.mem_append.mp hm with hm | hm
  · exact absurd (hd _ hm) (by decide)
  · simp only [List.mem_cons] at hm
    rcases hm with hm | hm | hm | hm
    · exact absurd hm (by decide)
    · exact absurd hm (by decide)
    · exact absurd hm (by decide)
    · exact hnl hm

/-- C2 (amended): outside a multiline message, an opening line `N:::text1` with
`N < 2^63`, then body lines (each non-empty and not `:::`), then a line `:::` make
`consume` call the handler exactly once for the block, with `Level = N` and
`Message = text1` followed by every body line after a line feed, and for none of the
lines of the block on its own. -/
theorem consume_multiline_block (cmd : Nat) (dl : Int) (pre body : List Str)
    (ds text1 tail after : Str) (e : ReadError)
    (hpre : ∀ l ∈ pre, '\n' ∉ l)
    (hmode : (consume cmd dl ⟨joinLines pre, ReadError.EOF⟩).map (fun o => o.multiline)
      = some false)
    (hne : ds ≠ []) (hd : ∀ c ∈ ds, c.isDigit = true) (hv : decimalValue ds < 2 ^ 63)
    (hnl : '\n' ∉ text1)
    (hbody : ∀ l ∈ body, l ≠ [] ∧ l ≠ ":::".toList ∧ '\n' ∉ l)
    (htail : tail = '\n' :: after ∨ (tail = [] ∧ after = [] ∧ e = ReadError.EOF)) :
    ∃ a b r, consume cmd dl ⟨joinLines pre, ReadError.EOF⟩ = some a ∧
      consume cmd dl ⟨after, e⟩ = some b ∧
      consume cmd dl ⟨joinLines pre ++ (ds ++ ":::".toList ++ text1) ++ "\n".toList
        ++ joinLines body ++ ":::".toList ++ tail, e⟩ = some r ∧
      r.handled = a.handled ++
        ⟨cmd, (decimalValue ds : Int), text1 ++ body.flatMap (fun l => "\n".toList ++ l)⟩
          :: b.handled ∧
      r.signalled = b.signalled ∧ r.multiline = b.multiline := by
  have hp := consume_pre cmd dl pre hpre
  rw [hp] at hmode
  simp only [Option.map_some', Locals.outcome, Option.some.injEq] at hmode
  have hopen := not_mem_opening ds text1 hd hnl
  have hfront : ∀ l ∈ pre ++ (ds ++ ':' :: ':' :: ':' :: text1) :: body, '\n' ∉ l := by
    intro l hl
    rcases List.mem_append.mp hl with hl | hl
    · exact hpre l hl
    · rcases List.mem_cons.mp hl with rfl | hl
      · exact hopen
      · exact (hbody l hl).2.2
  have hstep := processLine_open cmd dl (pre.foldl (processLine cmd dl) initLocals) ds text1
    hmode hne hd hnl
  have hbd := foldl_body cmd dl body
    ⟨(ParseInt ds 0).1, text1, true, (pre.foldl (processLine cmd dl) initLocals).handled⟩ rfl
    (fun l hl => ⟨(hbody l hl).1, (hbody l hl).2.1⟩)
  have hstate : (pre ++ (ds ++ ':' :: ':' :: ':' :: text1) :: body).foldl (processLine cmd dl)
      initLocals = ⟨(decimalValue ds : Int), text1 ++ body.flatMap (fun l => '\n' :: l), true,
        (pre.foldl (processLine cmd dl) initLocals).handled⟩ := by
    rw [List.foldl_append, List.foldl_cons, hstep, hbd, ParseInt_digits ds hne hd hv]
  have hclose : processLine cmd dl
      ((pre ++ (ds ++ ':' :: ':' :: ':' :: text1) :: body).foldl (processLine cmd dl) initLocals)
      [':', ':', ':']
      = ⟨(decimalValue ds : Int), text1 ++ body.flatMap (fun l => '\n' :: l), false,
        (pre.foldl (processLine cmd dl) initLocals).handled ++
          [⟨cmd, (decimalValue ds : Int), text1 ++ body.flatMap (fun l => '\n' :: l)⟩]⟩ := by
    rw [hstate]
    simp [processLine]
  obtain ⟨b, r, hb, hr, h1, h2, h3⟩ := consume_after cmd dl
    (pre ++ (ds ++ ':' :: ':' :: ':' :: text1) :: body) [':', ':', ':'] tail after e
    ((pre.foldl (processLine cmd dl) initLocals).handled ++
      [⟨cmd, (decimalValue ds : Int), text1 ++ body.flatMap (fun l => '\n' :: l)⟩])
    hfront (by decide) (by
      rw [hclose]
      exact ⟨by simp [initLocals], rfl, by simp [initLocals]⟩) htail
  refine ⟨_, b, r, hp, hb, ?_, ?_, h2, h3⟩
  · have : joinLines pre ++ (ds ++ ":::".toList ++ text1) ++ "\n".toList
        ++ joinLines body ++ ":::".toList ++ tail
        = joinLines (pre ++ (ds ++ ':' :: ':' :: ':' :: text1) :: body) ++ [':', ':', ':']
          ++ tail := by
      show joinLines pre ++ (ds ++ [':', ':', ':'] ++ text1) ++ ['\n']
        ++ joinLines body ++ [':', ':', ':'] ++ tail = _
      simp [joinLines]
    rw [this]; exact hr
  · rw [h1]
    show _ = _ ++ (⟨cmd, (decimalValue ds : Int), text1 ++ body.flatMap (fun l => ['\n'] ++ l)⟩
      :: b.handled)
    simp [Locals.outcome]

/-- C3: when the stream ends (`io.EOF`) after an opening line `N:::text` that was read
outside a multiline message and no line `:::` followed, the handler calls are exactly
those for the lines before the opening line; `consume` still signals completion. -/
theorem consume_eof_in_multiline (cmd : Nat) (dl : Int) (pre body : List Str)
    (ds text tail last : Str)
    (hpre : ∀ l ∈ pre, '\n' ∉ l)
    (hmode : (consume cmd dl ⟨joinLines pre, ReadError.EOF⟩).map (fun o => o.multiline)
      = some false)
    (hne : ds ≠ []) (hd : ∀ c ∈ ds, c.isDigit = true) (hnl : '\n' ∉ text)
    (hbody : ∀ l ∈ body, l ≠ ":::".toList ∧ '\n' ∉ l)
    (hlast : last ≠ ":::".toList ∧ '\n' ∉ last)
    (htail : tail = [] ∨ tail = "\n".toList ++ joinLines body ++ last) :
    ∃ a r, consume cmd dl ⟨joinLines pre, ReadError.EOF⟩ = some a ∧
      consume cmd dl ⟨joinLines pre ++ (ds ++ ":::".toList ++ text) ++ tail, ReadError.EOF⟩
        = some r ∧
      r.handled = a.handled ∧ r.signalled = true ∧ r.multiline = true := by
  have hp := consume_pre cmd dl pre hpre
  rw [hp] at hmode
  simp only [Option.map_some', Locals.outcome, Option.some.injEq] at hmode
  have hopen := not_mem_opening ds text hd hnl
  have hstep := processLine_open cmd dl (pre.foldl (processLine cmd dl) initLocals) ds text
    hmode hne hd hnl
  have hline : ds ++ ":::".toList ++ text = ds ++ ':' :: ':' :: ':' :: text := by
    show ds ++ [':', ':', ':'] ++ text = _
    simp
  rcases htail with ht | ht
  · have hr := consume_lines cmd dl pre (ds ++ ':' :: ':' :: ':' :: text) ReadError.EOF hpre hopen
    refine ⟨_, lastIteration cmd dl ReadError.EOF (pre.foldl (processLine cmd dl) initLocals)
        (ds ++ ':' :: ':' :: ':' :: text), hp, ?_, ?_, ?_, ?_⟩
    · rw [ht, hline, List.append_nil]; exact hr
    · simp [lastIteration, Locals.outcome, hstep]
    · rfl
    · simp [lastIteration, Locals.outcome, hstep]
  · have hall : ∀ l ∈ pre ++ (ds ++ ':' :: ':' :: ':' :: text) :: body, '\n' ∉ l := by
      intro l hl
      rcases List.mem_append.mp hl with hl | hl
      · exact hpre l hl
      · rcases List.mem_cons.mp hl with rfl | hl
        · exact hopen
        · exact (hbody l hl).2
    have hr := consume_lines cmd dl (pre ++ (ds ++ ':' :: ':' :: ':' :: text) :: body) last
      ReadError.EOF hall hlast.2
    have hun := foldl_unterminated cmd dl body
      ⟨(ParseInt ds 0).1, text, true, (pre.foldl (processLine cmd dl) initLocals).handled⟩ rfl
      (fun l hl => (hbody l hl).1)
    have hfin := processLine_unterminated cmd dl _ last hun.1 hlast.1
    rw [List.foldl_append, List.foldl_cons, hstep] at hr
    refine ⟨_, lastIteration cmd dl ReadError.EOF (body.foldl (processLine cmd dl)
        ⟨(ParseInt ds 0).1, text, true, (pre.foldl (processLine cmd dl) initLocals).handled⟩) last,
      hp, ?_, ?_, ?_, ?_⟩
    · have : joinLines pre ++ (ds ++ ":::".toList ++ text) ++ tail
          = joinLines (pre ++ (ds ++ ':' :: ':' :: ':' :: text) :: body) ++ last := by
        rw [ht, hline]
        show _ ++ _ ++ (['\n'] ++ joinLines body ++ last) = _
        simp [joinLines]
      rw [this]; exact hr
    · show (processLine cmd dl _ last).handled = _
      rw [hfin.2, hun.2]; rfl
    · rfl
    · exact hfin.1

/-- C1, witness: the stream `boot` / `5::disk ok` read to `io.EOF`. -/
theorem consume_single_line_witness :
    decimalValue "5".toList < 2 ^ 63 ∧
    ∃ a b r, consume 7 3 ⟨joinLines ["boot".toList], ReadError.EOF⟩ = some a ∧
      consume 7 3 ⟨[], ReadError.EOF⟩ = some b ∧
      consume 7 3 ⟨joinLines ["boot".toList] ++ ("5".toList ++ "::".toList ++ "disk ok".toList)
        ++ "\n".toList, ReadError.EOF⟩ = some r ∧
      r.handled = a.handled ++ ⟨7, (decimalValue "5".toList : Int), "disk ok".toList⟩ :: b.handled ∧
      r.signalled = b.signalled ∧ r.multiline = b.multiline :=
  ⟨by decide,
   consume_single_line 7 3 ["boot".toList] "5".toList "disk ok".toList "\n".toList []
     ReadError.EOF (by decide) (by decide) (by decide) (by decide) (by decide) (by decide)
     (by decide) (by decide)⟩

/-- C1, counterexamples: a line `N::text` for which the handler is not called once with
`Level = N` and `Message = text`.  (1) `5:::x` is `N::text` with the text `:x`; the three
colons open a multiline message and the handler is not called.  (2) Inside a multiline
message `5::x` is appended to the text.  (3) `9223372036854775808::x` is delivered with
the level `2^63 - 1`. -/
theorem consume_single_line_counterexample :
    (consume 7 3 ⟨"5".toList ++ "::".toList ++ ":x".toList ++ "\n".toList, ReadError.EOF⟩).map
        (fun o => o.handled) = some [] ∧
    (consume 7 3 ⟨"1:::a\n".toList ++ ("5".toList ++ "::".toList ++ "x".toList) ++ "\n:::\n".toList,
        ReadError.EOF⟩).map (fun o => o.handled) = some [⟨7, 1, "a\n5::x".toList⟩] ∧
    (consume 7 3 ⟨"9223372036854775808".toList ++ "::".toList ++ "x".toList ++ "\n".toList,
        ReadError.EOF⟩).map (fun o => o.handled) = some [⟨7, 9223372036854775807, "x".toList⟩] ∧
    decimalValue "9223372036854775808".toList = 9223372036854775808 := by
  decide

/-- C2, witness: the block `2:::disk` / `full` / `now` / `:::` after the line `boot`. -/
theorem consume_multiline_block_witness :
    decimalValue "2".toList < 2 ^ 63 ∧
    ∃ a b r, consume 7 3 ⟨joinLines ["boot".toList], ReadError.EOF⟩ = some a ∧
      consume 7 3 ⟨"done".toList, ReadError.EOF⟩ = some b ∧
      consume 7 3 ⟨joinLines ["boot".toList] ++ ("2".toList ++ ":::".toList ++ "disk".toList)
        ++ "\n".toList ++ joinLines ["full".toList, "now".toList] ++ ":::".toList
        ++ "\ndone".toList, ReadError.EOF⟩ = some r ∧
      r.handled = a.handled ++
        ⟨7, (decimalValue "2".toList : Int),
          "disk".toList ++ ["full".toList, "now".toList].flatMap (fun l => "\n".toList ++ l)⟩
          :: b.handled ∧
      r.signalled = b.signalled ∧ r.multiline = b.multiline :=
  ⟨by decide,
   consume_multiline_block 7 3 ["boot".toList] ["full".toList, "now".toList] "2".toList
     "disk".toList "\ndone".toList "done".toList ReadError.EOF (by decide) (by decide)
     (by decide) (by decide) (by decide) (by decide) (by decide) (by decide)⟩

/-- C2, counterexample: the block opened by `9223372036854775808:::a` is delivered with
the level `2^63 - 1`, not with the number of the opening line. -/
theorem consume_multiline_block_counterexample :
    (consume 7 3 ⟨"9223372036854775808".toList ++ ":::".toList ++ "a".toList ++ "\n".toList
        ++ joinLines ["b".toList] ++ ":::".toList ++ "\n".toList, ReadError.EOF⟩).map
        (fun o => o.handled) = some [⟨7, 9223372036854775807, "a\nb".toList⟩] ∧
    decimalValue "9223372036854775808".toList = 9223372036854775808 := by
  decide

/-- C3, witness: the stream `boot` / `2:::disk` / `full` / `no` ends inside the block. -/
theorem consume_eof_in_multiline_witness :
    ∃ a r, consume 7 3 ⟨joinLines ["boot".toList], ReadError.EOF⟩ = some a ∧
      consume 7 3 ⟨joinLines ["boot".toList] ++ ("2".toList ++ ":::".toList ++ "disk".toList)
        ++ ("\n".toList ++ joinLines ["full".toList] ++ "no".toList), ReadError.EOF⟩ = some r ∧
      r.handled = a.handled ∧ r.signalled = true ∧ r.multiline = true :=
  consume_eof_in_multiline 7 3 ["boot".toList] ["full".toList] "2".toList "disk".toList
    ("\n".toList ++ joinLines ["full".toList] ++ "no".toList) "no".toList
    (by decide) (by decide) (by decide) (by decide) (by decide) (by decide) (by decide)
    (Or.inr rfl)

end Pm

/-! ## Theorems, part 2: `MapArgs` -/

namespace Pm

/-- C9, the code at the failing input: the deep clone of the arguments `{"name": "x"}`
holds no key at all, so `GetString("name")` is `"x"` on the arguments and `""` on the
clone, while the shallow clone keeps the binding. -/
theorem Clone_deep_drops_binding :
    (MapArgs.mk [("name".toList, Value.string "x".toList)]).GetString "name".toList
      = some "x".toList ∧
    mapKeys ((MapArgs.mk [("name".toList, Value.string "x".toList)]).Clone true).data = [] ∧
    ((MapArgs.mk [("name".toList, Value.string "x".toList)]).Clone true).GetString "name".toList
      = some [] ∧
    ((MapArgs.mk [("name".toList, Value.string "x".toList)]).Clone false).GetString "name".toList
      = some "x".toList := by
  decide

end Pm

/-! ## Theorems, part 3: the container filesystem -/

namespace Containers

open Pm (Str)

/-- C8, the code at the failing input: for the archive entry `../../../etc/cron.d/evil`
of the plist `plist.tar`, `getMetaDB` of container 1 returns the directory
`/tmp/container-1/c5e2f949b850b406006b9bedd9c6e246.db` and creates the file
`/etc/cron.d/evil`, which does not lie inside that directory. -/
theorem getMetaDB_escapes_db :
    (container.mk 1 ⟨"plist.tar".toList, [], []⟩).getMetaDB
        (exampleWorld [] ⟨[⟨"../../../etc/cron.d/evil".toList, false⟩], none⟩ []) []
        "plist.tar".toList
      = (Except.ok "/tmp/container-1/c5e2f949b850b406006b9bedd9c6e246.db".toList,
         [Event.Stat "plist.tar".toList, Event.Open "plist.tar".toList,
          Event.MkdirAll "/tmp/container-1/c5e2f949b850b406006b9bedd9c6e246.db".toList,
          Event.MkdirAll "/etc/cron.d".toList, Event.Create "/etc/cron.d/evil".toList,
          Event.Copy "/etc/cron.d/evil".toList, Event.FileClose "/etc/cron.d/evil".toList,
          Event.Close (Layer.file "plist.tar".toList)]) ∧
    ¬ isInside "/etc/cron.d/evil".toList
        "/tmp/container-1/c5e2f949b850b406006b9bedd9c6e246.db".toList := by
  decide

/-- C10, the code at the failing input: after a successful root mount, the mount source
`:foo`, which `url.Parse` rejects, makes `mount` fault on `u.Scheme` right after the
target directory was created; it neither mounts nor returns an error. -/
theorem mount_faults_on_rejected_source :
    (container.mk 1 ⟨"plist.tar".toList, [(":foo".toList, "/data".toList)], []⟩).mount
        (exampleWorld [] ⟨[], none⟩ [Firing.Match])
      = (Ret.fault "nil pointer dereference".toList,
         [Event.RemoveAll "/mnt/container-1".toList, Event.MkdirAll "/mnt/container-1".toList,
          Event.RemoveAll "/tmp/container-1/c5e2f949b850b406006b9bedd9c6e246".toList,
          Event.MkdirAll "/tmp/container-1/c5e2f949b850b406006b9bedd9c6e246".toList,
          Event.Stat "plist.tar".toList, Event.Open "plist.tar".toList,
          Event.MkdirAll "/tmp/container-1/c5e2f949b850b406006b9bedd9c6e246.db".toList,
          Event.Close (Layer.file "plist.tar".toList),
          Event.RunCmd "g8ufs".toList
            ["-reset".toList, "-backend".toList,
             "/tmp/container-1/c5e2f949b850b406006b9bedd9c6e246".toList, "-meta".toList,
             "/tmp/container-1/c5e2f949b850b406006b9bedd9c6e246.db".toList,
             "-storage-url".toList, "ardb://home.maxux.net:26379".toList,
             "/mnt/container-1".toList],
          Event.MkdirAll "/mnt/container-1/data".toList]) := by
  decide

/-- C4, counterexample: for the source `plist.xyz`, `getMetaDBTar` calls `os.Stat` before
it looks at the extension.  Where the file is missing it returns the error of `os.Stat`,
not the format error; where the file exists it returns the format error only after
`os.Stat` and `os.Open`. -/
theorem getMetaDBTar_counterexample :
    (container.mk 1 ⟨"plist.xyz".toList, [], []⟩).getMetaDBTar
        (exampleWorld ["plist.xyz".toList] ⟨[], none⟩ []) [] "plist.xyz".toList
      = (Except.error "stat plist.xyz: no such file or directory".toList,
         [Event.Stat "plist.xyz".toList]) ∧
    (container.mk 1 ⟨"plist.xyz".toList, [], []⟩).getMetaDBTar
        (exampleWorld [] ⟨[], none⟩ []) [] "plist.xyz".toList
      = (Except.error "unknown plist format .xyz".toList,
         [Event.Stat "plist.xyz".toList, Event.Open "plist.xyz".toList]) := by
  decide

theorem fire_initGate (target : Str) (f : Firing) :
    fire target initGate f
      = ⟨true, 0, (match f with
          | Firing.Exit false =>
            some ("upnormal exit of filesystem mount at '".toList ++ target ++ "'".toList)
          | _ => none), 1, false⟩ := by
  cases f with
  | Match => simp [fire, onceDo, wgDone, initGate]
  | Exit s => cases s <;> simp [fire, onceDo, wgDone, initGate]

theorem fire_done (target : Str) (g : Gate) (f : Firing) (h : g.onceDone = true) :
    fire target g f = g := by
  cases f <;> simp [fire, onceDo, h]

theorem foldl_fire_done (target : Str) (fs : List Firing) (g : Gate) (h : g.onceDone = true) :
    fs.foldl (fire target) g = g := by
  induction fs with
  | nil => rfl
  | cons f fs ih => rw [List.foldl_cons, fire_done target g f h, ih]

theorem wgWait_first (target : Str) (f : Firing) (rest : List Firing) :
    wgWait target initGate (f :: rest) = some (fire target initGate f) := by
  have h0 : (fire target initGate f).counter = 0 := by rw [fire_initGate]
  have h1 : ¬ (initGate.counter = 0) := by decide
  rw [wgWait]
  simp only [h1, if_false]
  cases rest with
  | nil => simp [wgWait, h0]
  | cons f2 fs => simp [wgWait, h0]

/-- C5: in `mountPList`, once the target exists and the metadata extraction succeeded,
a non-empty sequence of hook firings `f :: rest` releases the wait gate exactly once, by
the first firing (`wg.Done` is called once, the counter is zero, nothing panics), the
call returns what the first firing decides (`nil` for the match hook and for
`ExitHook(true)`, the abnormal-exit error naming the target for `ExitHook(false)`), and
after every later firing the shared variables are those left by the first. -/
theorem mountPList_first_firing (w : World) (c : container) (tr : List Event)
    (src target db : Str) (f : Firing) (rest : List Firing)
    (hmk : w.osMkdirAll tr target = none)
    (hdb : (c.getMetaDB w (tr ++ [Event.MkdirAll target, Event.RemoveAll (c.backend w src),
      Event.MkdirAll (c.backend w src)]) src).1 = Except.ok db)
    (hfire : w.hooks (c.mountPList w tr src target).trace = f :: rest) :
    (c.mountPList w tr src target).ret = decidedBy target f ∧
    (c.mountPList w tr src target).gate = some (fire target initGate f) ∧
    (fire target initGate f).counter = 0 ∧
    (fire target initGate f).doneCalls = 1 ∧
    (fire target initGate f).panicked = false ∧
    (∀ k, ((f :: rest).take (k + 1)).foldl (fire target) initGate = fire target initGate f) := by
  have hdone : (fire target initGate f).onceDone = true := by rw [fire_initGate]
  have hlater : ∀ k, ((f :: rest).take (k + 1)).foldl (fire target) initGate
      = fire target initGate f := by
    intro k
    rw [List.take_succ_cons, List.foldl_cons]
    exact foldl_fire_done target _ _ hdone
  have hall : (f :: rest).foldl (fire target) initGate = fire target initGate f := by
    rw [List.foldl_cons]
    exact foldl_fire_done target _ _ hdone
  rcases hg : c.getMetaDB w (tr ++ [Event.MkdirAll target,
    Event.RemoveAll (c.backend w src), Event.MkdirAll (c.backend w src)]) src with ⟨r1, tr2⟩
  rw [hg] at hdb
  simp only at hdb
  subst hdb
  have htrace : (c.mountPList w tr src target).trace
      = tr2 ++ [Event.RunCmd "g8ufs".toList ["-reset".toList, "-backend".toList,
          c.backend w src, "-meta".toList, db, "-storage-url".toList,
          (if c.args.Storage = [] then w.fuseStorage else c.args.Storage), target]] := by
    unfold container.mountPList
    simp only [hmk, hg]
    split <;> [skip; split] <;> rfl
  rw [htrace] at hfire
  have hres : c.mountPList w tr src target
      = ⟨decidedBy target f, tr2 ++ [Event.RunCmd "g8ufs".toList ["-reset".toList,
          "-backend".toList, c.backend w src, "-meta".toList, db, "-storage-url".toList,
          (if c.args.Storage = [] then w.fuseStorage else c.args.Storage), target]],
          some (fire target initGate f)⟩ := by
    unfold container.mountPList
    simp only [hmk, hg, hfire, wgWait_first, hall]
    cases f with
    | Match => simp [fire_initGate, decidedBy]
    | Exit s => cases s <;> simp [fire_initGate, decidedBy]
  refine ⟨by rw [hres], by rw [hres], ?_, ?_, ?_, hlater⟩ <;> rw [fire_initGate]

/-- C5, witness: the exit hook fires with failure, then the match hook fires. -/
theorem mountPList_first_firing_witness :
    ((container.mk 1 ⟨"plist.tar".toList, [], []⟩).mountPList
        (exampleWorld [] ⟨[], none⟩ [Firing.Exit false, Firing.Match]) []
        "plist.tar".toList "/mnt/container-1".toList).ret
      = decidedBy "/mnt/container-1".toList (Firing.Exit false) :=
  (mountPList_first_firing (exampleWorld [] ⟨[], none⟩ [Firing.Exit false, Firing.Match])
    (container.mk 1 ⟨"plist.tar".toList, [], []⟩) [] "plist.tar".toList
    "/mnt/container-1".toList "/tmp/container-1/c5e2f949b850b406006b9bedd9c6e246.db".toList
    (Firing.Exit false) [Firing.Match] (by decide) (by decide) (by decide)).1

theorem mem_append_new {tr evs : List Event} {ev : Event}
    (h : ev ∈ tr ++ evs) (hnew : ∀ x ∈ evs, x.isMount = false) :
    ev ∈ tr ∨ ev.isMount = false := by
  rcases List.mem_append.mp h with h | h
  · exact Or.inl h
  · exact Or.inr (hnew ev h)

theorem openSource_trace (w : World) (tr : List Event) (src : Str) (u : URL) :
    ∀ ev ∈ (openSource w tr src u).2, ev ∈ tr ∨ ev.isMount = false := by
  intro ev hev
  unfold openSource at hev
  split at hev
  · split at hev
    · exact mem_append_new hev (by simp [Event.isMount])
    · split at hev <;> exact mem_append_new hev (by simp [Event.isMount])
  · split at hev
    · split at hev <;> exact mem_append_new hev (by simp [Event.isMount])
    · exact Or.inl hev

theorem Close_trace (u : underLayingCloser) (tr : List Event) :
    ∀ ev ∈ u.Close tr, ev ∈ tr ∨ ev.isMount = false := by
  intro ev hev
  unfold underLayingCloser.Close at hev
  refine mem_append_new hev ?_
  intro x hx
  obtain ⟨l, _, rfl⟩ := List.mem_map.mp hx
  rfl

theorem getMetaDBTar_trace (w : World) (c : container) (tr : List Event) (src : Str) :
    ∀ ev ∈ (c.getMetaDBTar w tr src).2, ev ∈ tr ∨ ev.isMount = false := by
  intro ev hev
  unfold container.getMetaDBTar at hev
  split at hev
  · exact Or.inl hev
  · rename_i u _
    have hopen := openSource_trace w tr src u
    split at hev
    · rename_i e tr1 heq
      exact hopen ev (by rw [heq]; exact hev)
    · rename_i reader tr1 heq
      have h1 : ∀ x ∈ tr1, x ∈ tr ∨ x.isMount = false := fun x hx =>
        hopen x (by rw [heq]; exact hx)
      simp only at hev
      split at hev
      · split at hev
        · rcases Close_trace _ _ ev hev with h | h
          · rcases mem_append_new h (by simp [Event.isMount]) with h | h
            · exact h1 ev h
            · exact Or.inr h
          · exact Or.inr h
        · rcases mem_append_new hev (by simp [Event.isMount]) with h | h
          · exact h1 ev h
          · exact Or.inr h
      · split at hev
        · rcases mem_append_new hev (by simp [Event.isMount]) with h | h
          · exact h1 ev h
          · exact Or.inr h
        · split at hev <;> exact h1 ev hev

theorem extractLoop_trace (w : World) (db : Str) (broken : Option Str) (es : List TarEntry)
    (tr : List Event) :
    ∀ ev ∈ (extractLoop w db broken es tr).2, ev ∈ tr ∨ ev.isMount = false := by
  induction es generalizing tr with
  | nil => intro ev hev; exact Or.inl hev
  | cons h rest ih =>
    intro ev hev
    rw [extractLoop] at hev
    split at hev
    · exact ih tr ev hev
    · simp only at hev
      split at hev
      · exact mem_append_new hev (by simp [Event.isMount])
      · split at hev
        · rcases mem_append_new hev (by simp [Event.isMount]) with h | h
          · exact mem_append_new h (by simp [Event.isMount])
          · exact Or.inr h
        · have hstep : ∀ x ∈ tr ++ [Event.MkdirAll (Join [db, Dir h.Name])]
              ++ [Event.Create (Join [db, h.Name])]
              ++ [Event.Copy (Join [db, h.Name]), Event.FileClose (Join [db, h.Name])],
              x ∈ tr ∨ x.isMount = false := by
            intro x hx
            simp only [List.append_assoc] at hx
            exact mem_append_new hx (by simp [Event.isMount])
          split at hev
          · exact hstep ev hev
          · rcases ih _ ev hev with h | h
            · exact hstep ev h
            · exact Or.inr h

theorem getMetaDB_trace (w : World) (c : container) (tr : List Event) (src : Str) :
    ∀ ev ∈ (c.getMetaDB w tr src).2, ev ∈ tr ∨ ev.isMount = false := by
  intro ev hev
  have htar := getMetaDBTar_trace w c tr src
  unfold container.getMetaDB at hev
  split at hev
  · rename_i e tr1 heq
    exact htar ev (by rw [heq]; exact hev)
  · rename_i reader tr1 heq
    have h1 : ∀ x ∈ tr1, x ∈ tr ∨ x.isMount = false := fun x hx =>
      htar x (by rw [heq]; exact hx)
    have h2 : ∀ x ∈ tr1 ++ [Event.MkdirAll (c.db w src)], x ∈ tr ∨ x.isMount = false := by
      intro x hx
      rcases mem_append_new hx (by simp [Event.isMount]) with h | h
      · exact h1 x h
      · exact Or.inr h
    simp only at hev
    split at hev
    · rcases Close_trace _ _ ev hev with h | h
      · exact h2 ev h
      · exact Or.inr h
    · split at hev
      · rename_i e tr2 heq2
        rcases Close_trace _ _ ev hev with h | h
        · rcases extractLoop_trace w _ _ _ _ ev (by rw [heq2]; exact h) with h | h
          · exact h2 ev h
          · exact Or.inr h
        · exact Or.inr h
      · rename_i tr2 heq2
        rcases Close_trace _ _ ev hev with h | h
        · rcases extractLoop_trace w _ _ _ _ ev (by rw [heq2]; exact h) with h | h
          · exact h2 ev h
          · exact Or.inr h
        · exact Or.inr h

/-- A call of `mountPList` adds no bind-mount to the trace. -/
theorem mountPList_trace (w : World) (c : container) (tr : List Event) (src target : Str) :
    ∀ ev ∈ (c.mountPList w tr src target).trace, ev ∈ tr ∨ ev.isMount = false := by
  intro ev hev
  unfold container.mountPList at hev
  split at hev
  · exact mem_append_new hev (by simp [Event.isMount])
  · simp only at hev
    have h1 : ∀ x ∈ tr ++ [Event.MkdirAll target, Event.RemoveAll (c.backend w src),
        Event.MkdirAll (c.backend w src)], x ∈ tr ∨ x.isMount = false :=
      fun x hx => mem_append_new hx (by simp [Event.isMount])
    have hdb := getMetaDB_trace w c (tr ++ [Event.MkdirAll target,
      Event.RemoveAll (c.backend w src), Event.MkdirAll (c.backend w src)]) src
    split at hev
    · rename_i e tr2 heq
      rcases hdb ev (by rw [heq]; exact hev) with h | h
      · exact h1 ev h
      · exact Or.inr h
    · rename_i db tr2 heq
      have h2 : ∀ x ∈ tr2, x ∈ tr ∨ x.isMount = false := by
        intro x hx
        rcases hdb x (by rw [heq]; exact hx) with h | h
        · exact h1 x h
        · exact Or.inr h
      have h3 : ∀ x ∈ tr2 ++ [Event.RunCmd "g8ufs".toList ["-reset".toList,
          "-backend".toList, c.backend w src, "-meta".toList, db, "-storage-url".toList,
          (if c.args.Storage = [] then w.fuseStorage else c.args.Storage), target]],
          x ∈ tr ∨ x.isMount = false := by
        intro x hx
        rcases mem_append_new hx (by simp [Event.isMount]) with h | h
        · exact h2 x h
        · exact Or.inr h
      split at hev
      · exact h3 ev hev
      · split at hev <;> exact h3 ev hev

/-- C6: when the root `mountPList` of a container fails with an error `e`, `mount`
returns the error `mount-root-plist(e)` and stops there: its calls are exactly those of
the root `mountPList` (after the removal of the stale root), whatever the entries of
`args.Mount` are, and no bind-mount is among them. -/
theorem mount_root_failure (w : World) (c : container) (e : Str)
    (hroot : (c.mountPList w [Event.RemoveAll c.root] c.args.Root c.root).ret = Ret.error e) :
    c.mount w = (Ret.error ("mount-root-plist(".toList ++ e ++ ")".toList),
      (c.mountPList w [Event.RemoveAll c.root] c.args.Root c.root).trace) ∧
    (∀ m, (container.mk c.id ⟨c.args.Root, m, c.args.Storage⟩).mount w = c.mount w) ∧
    (∀ ev ∈ (c.mount w).2, ev.isMount = false) := by
  have hmount : ∀ d : container,
      (d.mountPList w [Event.RemoveAll d.root] d.args.Root d.root).ret = Ret.error e →
      d.mount w = (Ret.error ("mount-root-plist(".toList ++ e ++ ")".toList),
        (d.mountPList w [Event.RemoveAll d.root] d.args.Root d.root).trace) := by
    intro d hd
    rcases hres : d.mountPList w [Event.RemoveAll d.root] d.args.Root d.root with ⟨r, tr1, g⟩
    rw [hres] at hd
    simp only at hd
    subst hd
    simp only [container.mount, hres]
  have h1 := hmount c hroot
  refine ⟨h1, ?_, ?_⟩
  · intro m
    rw [h1]
    exact hmount (container.mk c.id ⟨c.args.Root, m, c.args.Storage⟩) hroot
  · intro ev hev
    rw [h1] at hev
    rcases mountPList_trace w c _ _ _ ev hev with h | h
    · rw [List.mem_singleton.mp h]; rfl
    · exact h

/-- C6, witness: the root plist `plist.tar` does not exist. -/
theorem mount_root_failure_witness :
    (container.mk 1 ⟨"plist.tar".toList, [("plist.tgz".toList, "/data".toList)], []⟩).mount
        (exampleWorld ["plist.tar".toList] ⟨[], none⟩ [Firing.Match])
      = (Ret.error ("mount-root-plist(".toList
            ++ "stat plist.tar: no such file or directory".toList ++ ")".toList),
         ((container.mk 1 ⟨"plist.tar".toList, [("plist.tgz".toList, "/data".toList)], []⟩).mountPList
            (exampleWorld ["plist.tar".toList] ⟨[], none⟩ [Firing.Match])
            [Event.RemoveAll
              (container.mk 1 ⟨"plist.tar".toList, [("plist.tgz".toList, "/data".toList)], []⟩).root]
            "plist.tar".toList
            (container.mk 1 ⟨"plist.tar".toList, [("plist.tgz".toList, "/data".toList)], []⟩).root).trace) :=
  (mount_root_failure (exampleWorld ["plist.tar".toList] ⟨[], none⟩ [Firing.Match])
    (container.mk 1 ⟨"plist.tar".toList, [("plist.tgz".toList, "/data".toList)], []⟩)
    "stat plist.tar: no such file or directory".toList (by decide)).1

/-- C4 (amended): `getMetaDBTar` looks at the extension only after the source was
resolved, whatever the extension is.  A source that `url.Parse` rejects yields the error
of `url.Parse` and no outside call.  For a parsed source: with the scheme `file` or none,
a failing `os.Stat` yields its error after that call alone, a failing `os.Open` yields its
error after `os.Stat` and `os.Open`; with the scheme `http` or `https`, a failing
`http.Get` yields its error after that call; any other scheme yields `invalid plist url`
and no outside call.  When the source resolves (`access` are the calls made and `reader`
is their stream): an extension other than `.tar`, `.gz`, `.tgz`, `.bz2`, `.tbz2` yields
the error `unknown plist format` with the extension, after exactly those calls;
`.tgz`/`.gz` selects the gzip reader; `.tbz2`/`.bz2` selects the bzip2 reader. -/
theorem getMetaDBTar_format (w : World) (c : container) (tr : List Event) (src : Str) :
    (∀ e, w.urlParse src = Except.error e →
      c.getMetaDBTar w tr src = (Except.error e, tr)) ∧
    (∀ u, w.urlParse src = Except.ok u →
      (u.Scheme = "file".toList ∨ u.Scheme = [] →
        (∀ e, w.osStat tr u.Path = some e →
          c.getMetaDBTar w tr src = (Except.error e, tr ++ [Event.Stat u.Path])) ∧
        (∀ e, w.osStat tr u.Path = none →
          w.osOpen (tr ++ [Event.Stat u.Path]) u.Path = some e →
          c.getMetaDBTar w tr src
            = (Except.error e, tr ++ [Event.Stat u.Path, Event.Open u.Path]))) ∧
      (u.Scheme = "http".toList ∨ u.Scheme = "https".toList →
        ∀ e, w.httpGet tr src = some e →
          c.getMetaDBTar w tr src = (Except.error e, tr ++ [Event.HttpGet src])) ∧
      (¬ (u.Scheme = "file".toList ∨ u.Scheme = []) →
        ¬ (u.Scheme = "http".toList ∨ u.Scheme = "https".toList) →
        c.getMetaDBTar w tr src
          = (Except.error ("invalid plist url (".toList ++ src ++ ")".toList), tr)) ∧
      (∀ (reader : Layer) (access : List Event),
        (((u.Scheme = "file".toList ∨ u.Scheme = []) ∧ w.osStat tr u.Path = none ∧
            w.osOpen (tr ++ [Event.Stat u.Path]) u.Path = none ∧
            reader = Layer.file u.Path ∧
            access = [Event.Stat u.Path, Event.Open u.Path]) ∨
          ((u.Scheme = "http".toList ∨ u.Scheme = "https".toList) ∧
            w.httpGet tr src = none ∧
            reader = Layer.body src ∧ access = [Event.HttpGet src])) →
        (Ext (Base u.Path) ∉ [".tar".toList, ".gz".toList, ".tgz".toList, ".bz2".toList,
            ".tbz2".toList] →
          c.getMetaDBTar w tr src
            = (Except.error ("unknown plist format ".toList ++ Ext (Base u.Path)),
               tr ++ access)) ∧
        (Ext (Base u.Path) = ".tgz".toList ∨ Ext (Base u.Path) = ".gz".toList →
          c.getMetaDBTar w tr src
            = match w.gzipNewReader (tr ++ access) with
              | none =>
                (Except.ok ⟨[reader, Layer.gzip]⟩, tr ++ access ++ [Event.GzipNewReader])
              | some e =>
                (Except.error e, tr ++ access ++ [Event.GzipNewReader, Event.Close reader])) ∧
        (Ext (Base u.Path) = ".tbz2".toList ∨ Ext (Base u.Path) = ".bz2".toList →
          c.getMetaDBTar w tr src
            = (Except.ok ⟨[reader, Layer.bzip2]⟩, tr ++ access ++ [Event.Bzip2NewReader])) ∧
        access ≠ [])) := by
  refine ⟨?_, ?_⟩
  · intro e hparse
    unfold container.getMetaDBTar
    simp only [hparse]
  intro u hparse
  have hnot : u.Scheme = "http".toList ∨ u.Scheme = "https".toList →
      ¬ (u.Scheme = "file".toList ∨ u.Scheme = []) := by
    intro h1
    rcases h1 with h | h <;> rw [h] <;> decide
  refine ⟨?_, ?_, ?_, ?_⟩
  · intro hfile
    refine ⟨?_, ?_⟩
    · intro e hstat
      unfold container.getMetaDBTar openSource
      simp only [hparse, hfile, if_true, hstat]
    · intro e hstat hopen
      unfold container.getMetaDBTar openSource
      simp only [hparse, hfile, if_true, hstat, hopen]
  · intro hhttp e hget
    unfold container.getMetaDBTar openSource
    simp only [hparse, hnot hhttp, if_false, hhttp, if_true, hget]
  · intro h1 h2
    unfold container.getMetaDBTar openSource
    simp only [hparse, h1, h2, if_false]
  intro reader access hres
  have hopen : openSource w tr src u = (Except.ok reader, tr ++ access) := by
    unfold openSource
    rcases hres with ⟨h1, h2, h3, h4, h5⟩ | ⟨h1, h2, h4, h5⟩
    · simp only [h1, if_true, h2, h3, h4, h5]
    · simp only [hnot h1, if_false, h1, if_true, h2, h4, h5]
  have hclose : reader.isCloser = true := by
    rcases hres with ⟨_, _, _, h4, _⟩ | ⟨_, _, h4, _⟩ <;> rw [h4] <;> rfl
  have hne : access ≠ [] := by
    rcases hres with ⟨_, _, _, _, h5⟩ | ⟨_, _, _, h5⟩ <;> rw [h5] <;> simp
  refine ⟨?_, ?_, ?_, hne⟩
  · intro hext
    simp only [List.mem_cons, List.mem_singleton, List.not_mem_nil, or_false, not_or] at hext
    obtain ⟨e1, e2, e3, e4, e5⟩ := hext
    unfold container.getMetaDBTar
    simp only [hparse, hopen, e1, e2, e3, e4, e5, or_self, if_false]
  · intro hext
    unfold container.getMetaDBTar
    simp only [hparse, hopen, hext, if_true]
    cases w.gzipNewReader (tr ++ access) with
    | none => simp
    | some e => simp [underLayingCloser.Close, hclose]
  · intro hext
    have hgz : ¬ (Ext (Base u.Path) = ".tgz".toList ∨ Ext (Base u.Path) = ".gz".toList) := by
      rcases hext with h | h <;> rw [h] <;> decide
    unfold container.getMetaDBTar
    simp only [hparse, hopen, hgz, if_false, hext, if_true]
    simp

/-- C4, witness: `plist.xyz` exists and is opened before its extension is rejected. -/
theorem getMetaDBTar_format_witness :
    (container.mk 1 ⟨"plist.xyz".toList, [], []⟩).getMetaDBTar
        (exampleWorld [] ⟨[], none⟩ []) [] "plist.xyz".toList
      = (Except.error ("unknown plist format ".toList
            ++ Ext (Base (URL.mk [] "plist.xyz".toList).Path)),
         [] ++ [Event.Stat "plist.xyz".toList, Event.Open "plist.xyz".toList]) :=
  (((getMetaDBTar_format (exampleWorld [] ⟨[], none⟩ [])
    (container.mk 1 ⟨"plist.xyz".toList, [], []⟩) [] "plist.xyz".toList).2
    (URL.mk [] "plist.xyz".toList) (by decide)).2.2.2
    (Layer.file "plist.xyz".toList)
    [Event.Stat "plist.xyz".toList, Event.Open "plist.xyz".toList]
    (by decide)).1 (by decide)

end Containers

/-! ## Theorems, part 4: names and paths of containers -/

namespace Containers

open Pm (Str)

theorem digitChar_value : ∀ k, k < 10 → (Nat.digitChar k).toNat - 48 = k := by decide

theorem digitChar_isDigit : ∀ k, k < 10 → (Nat.digitChar k).isDigit = true := by decide

theorem digitChar_hex : ∀ k, k < 16 → Nat.digitChar k ≠ '/' ∧ Nat.digitChar k ≠ '.' := by
  decide

theorem formatDigits_value (fuel u : Nat) (acc : Str) (h : u < fuel) :
    (formatDigits fuel u acc).foldl (fun n c => 10 * n + (c.toNat - 48)) 0
      = acc.foldl (fun n c => 10 * n + (c.toNat - 48)) u := by
  induction fuel generalizing u acc with
  | zero => omega
  | succ fuel ih =>
    rw [formatDigits]
    by_cases hu : u ≥ 10
    · simp only [hu, if_true]
      rw [ih (u / 10) _ (by omega)]
      simp only [List.foldl_cons]
      rw [digitChar_value (u % 10) (Nat.mod_lt _ (by norm_num))]
      congr 1
      omega
    · simp only [hu, if_false, List.foldl_cons]
      rw [digitChar_value u (by omega)]
      congr 1
      omega

theorem formatDigits_chars (fuel u : Nat) (acc : Str) :
    ∀ c ∈ formatDigits fuel u acc, c.isDigit = true ∨ c ∈ acc := by
  induction fuel generalizing u acc with
  | zero => intro c hc; exact Or.inr hc
  | succ fuel ih =>
    intro c hc
    rw [formatDigits] at hc
    by_cases hu : u ≥ 10
    · simp only [hu, if_true] at hc
      rcases ih _ _ c hc with h | h
      · exact Or.inl h
      · rcases List.mem_cons.mp h with h | h
        · left; rw [h]; exact digitChar_isDigit _ (Nat.mod_lt _ (by norm_num))
        · exact Or.inr h
    · simp only [hu, if_false] at hc
      rcases List.mem_cons.mp hc with h | h
      · left; rw [h]; exact digitChar_isDigit _ (by omega)
      · exact Or.inr h

theorem formatDigits_injective (a b : Nat)
    (h : formatDigits (a + 1) a [] = formatDigits (b + 1) b []) : a = b := by
  have ha := formatDigits_value (a + 1) a [] (by omega)
  have hb := formatDigits_value (b + 1) b [] (by omega)
  rw [h, hb] at ha
  simpa using ha.symm

theorem formatInt_chars (i : Int) : ∀ c ∈ formatInt i, c.isDigit = true ∨ c = '-' := by
  intro c hc
  unfold formatInt at hc
  split at hc
  · rcases List.mem_cons.mp hc with h | h
    · exact Or.inr h
    · rcases formatDigits_chars _ _ _ c h with h | h
      · exact Or.inl h
      · exact absurd h (List.not_mem_nil _)
  · rcases formatDigits_chars _ _ _ c hc with h | h
    · exact Or.inl h
    · exact absurd h (List.not_mem_nil _)

theorem formatInt_injective (i j : Int) (h : formatInt i = formatInt j) : i = j := by
  have hdash : ∀ (n : Nat) (t : Str), formatDigits (n + 1) n [] ≠ '-' :: t := by
    intro n t e
    have hm : '-' ∈ formatDigits (n + 1) n [] := by rw [e]; exact List.mem_cons_self _ _
    rcases formatDigits_chars _ _ _ _ hm with h | h
    · exact absurd h (by decide)
    · exact absurd h (List.not_mem_nil _)
  unfold formatInt at h
  by_cases hi : i < 0 <;> by_cases hj : j < 0
  · simp only [hi, hj, if_true, List.cons.injEq, true_and] at h
    have := formatDigits_injective _ _ h
    omega
  · simp only [hi, hj, if_true, if_false] at h
    exact absurd h.symm (hdash _ _)
  · simp only [hi, hj, if_true, if_false] at h
    exact absurd h (hdash _ _)
  · simp only [hi, hj, if_false] at h
    have := formatDigits_injective _ _ h
    omega

theorem name_injective (c d : container) (h : c.name = d.name) : c.id = d.id := by
  unfold container.name at h
  exact formatInt_injective _ _ (List.append_cancel_left h)

theorem name_plain (c : container) : Plain c.name := by
  have hform : c.name = 'c' :: ("ontainer-".toList ++ formatInt c.id) := rfl
  refine ⟨?_, ?_, ?_, ?_⟩
  · rw [hform]; exact List.cons_ne_nil _ _
  · rw [hform]; intro h; exact absurd (List.cons.inj h).1 (by decide)
  · rw [hform]; intro h; exact absurd (List.cons.inj h).1 (by decide)
  · intro hm
    unfold container.name at hm
    rcases List.mem_append.mp hm with h | h
    · exact absurd h (by decide)
    · rcases formatInt_chars _ _ h with h | h
      · exact absurd h (by decide)
      · exact absurd h (by decide)

theorem hexEncode_chars (digest : List Nat) :
    ∀ c ∈ hexEncode digest, c ≠ '/' ∧ c ≠ '.' := by
  intro c hc
  unfold hexEncode at hc
  obtain ⟨b, _, hb⟩ := List.mem_flatMap.mp hc
  unfold hexByte at hb
  simp only [List.mem_cons, List.mem_singleton, List.not_mem_nil, or_false] at hb
  rcases hb with h | h
  · rw [h]; exact digitChar_hex _ (Nat.mod_lt _ (by norm_num))
  · rw [h]; exact digitChar_hex _ (Nat.mod_lt _ (by norm_num))

theorem hash_plain (w : World) (c : container) (src : Str) (h : c.hash w src ≠ []) :
    Plain (c.hash w src) := by
  have hch := hexEncode_chars (w.md5 src)
  unfold container.hash at h ⊢
  refine ⟨h, ?_, ?_, ?_⟩
  · intro e
    exact (hch '.' (by rw [e]; simp)).2 rfl
  · intro e
    exact (hch '.' (by rw [e]; simp)).2 rfl
  · intro hm
    exact (hch '/' hm).1 rfl

theorem hash_db_plain (w : World) (c : container) (src : Str) :
    Plain (c.hash w src ++ ".db".toList) := by
  have hch := hexEncode_chars (w.md5 src)
  unfold container.hash
  refine ⟨?_, ?_, ?_, ?_⟩
  · simp
  · intro e
    have := congrArg List.length e
    simp at this
  · intro e
    have := congrArg List.length e
    simp at this
  · intro hm
    rcases List.mem_append.mp hm with h | h
    · exact (hch '/' h).1 rfl
    · exact absurd h (by decide)

theorem splitSlash_ne_nil (p : Str) : splitSlash p ≠ [] := by
  induction p with
  | nil => simp [splitSlash]
  | cons c cs ih =>
    rw [splitSlash]
    split
    · simp
    · split <;> simp

theorem splitSlash_plain (e : Str) (h : '/' ∉ e) : splitSlash e = [e] := by
  induction e with
  | nil => rfl
  | cons c cs ih =>
    have hc : c ≠ '/' := fun e => h (by simp [e])
    have hcs : '/' ∉ cs := fun m => h (List.mem_cons_of_mem _ m)
    rw [splitSlash]
    simp only [hc, if_false, ih hcs]

theorem splitSlash_element (e rest : Str) (h : '/' ∉ e) :
    splitSlash (e ++ '/' :: rest) = e :: splitSlash rest := by
  induction e with
  | nil => simp [splitSlash]
  | cons c cs ih =>
    have hc : c ≠ '/' := fun e => h (by simp [e])
    have hcs : '/' ∉ cs := fun m => h (List.mem_cons_of_mem _ m)
    rw [List.cons_append, splitSlash]
    simp only [hc, if_false, ih hcs]

theorem splitSlash_joinSlash (es : List Str) (hne : es ≠ []) (h : ∀ e ∈ es, '/' ∉ e) :
    splitSlash (joinSlash es) = es := by
  induction es with
  | nil => exact absurd rfl hne
  | cons e rest ih =>
    have he : '/' ∉ e := h e (List.mem_cons_self _ _)
    cases rest with
    | nil => exact splitSlash_plain e he
    | cons e2 rest2 =>
      have hj : joinSlash (e :: e2 :: rest2) = e ++ '/' :: joinSlash (e2 :: rest2) := rfl
      rw [hj, splitSlash_element e _ he,
        ih (List.cons_ne_nil _ _) (fun x hx => h x (List.mem_cons_of_mem _ hx))]

theorem cleanStep_plain (rooted : Bool) (out : List Str) (e : Str) (h : Plain e) :
    cleanStep rooted out e = out ++ [e] := by
  obtain ⟨h1, h2, h3, _⟩ := h
  unfold cleanStep
  simp only [h1, h2, h3, or_self, if_false]

theorem foldl_cleanStep_plain (rooted : Bool) (es out : List Str) (h : ∀ e ∈ es, Plain e) :
    es.foldl (cleanStep rooted) out = out ++ es := by
  induction es generalizing out with
  | nil => simp
  | cons e rest ih =>
    rw [List.foldl_cons, cleanStep_plain rooted out e (h e (List.mem_cons_self _ _)),
      ih _ (fun x hx => h x (List.mem_cons_of_mem _ hx))]
    simp

/-- A rooted path of plain elements is already clean. -/
theorem Clean_rooted_plain (es : List Str) (hne : es ≠ []) (h : ∀ e ∈ es, Plain e) :
    Clean ('/' :: joinSlash es) = '/' :: joinSlash es := by
  have hsplit : splitSlash ('/' :: joinSlash es) = [] :: es := by
    rw [splitSlash]
    simp only [if_true]
    rw [splitSlash_joinSlash es hne (fun e he => (h e he).2.2.2)]
  unfold Clean
  simp only [List.cons_ne_nil, if_false, List.head?_cons, decide_True, if_true, hsplit,
    List.foldl_cons]
  have h0 : cleanStep true [] [] = [] := by simp [cleanStep]
  rw [h0, foldl_cleanStep_plain true es [] h]
  simp

theorem Join_base_two (base a : Str) (ha : Plain a) (hbase : Plain base) :
    Join ['/' :: base, a] = '/' :: (base ++ '/' :: a) := by
  have hf : ['/' :: base, a].filter (fun e => decide (e ≠ [])) = ['/' :: base, a] := by
    simp [List.filter, ha.1]
  unfold Join
  simp only [hf, List.cons_ne_nil, if_false]
  have hj : joinSlash ['/' :: base, a] = '/' :: joinSlash [base, a] := rfl
  rw [hj, Clean_rooted_plain [base, a] (List.cons_ne_nil _ _) (by
    intro e he
    simp only [List.mem_cons, List.mem_singleton, List.not_mem_nil, or_false] at he
    rcases he with rfl | rfl
    · exact hbase
    · exact ha)]
  rfl

theorem Join_base_three (base a b : Str) (ha : Plain a) (hb : Plain b) (hbase : Plain base) :
    Join ['/' :: base, a, b] = '/' :: (base ++ '/' :: (a ++ '/' :: b)) := by
  have hf : ['/' :: base, a, b].filter (fun e => decide (e ≠ [])) = ['/' :: base, a, b] := by
    simp [List.filter, ha.1, hb.1]
  unfold Join
  simp only [hf, List.cons_ne_nil, if_false]
  have hj : joinSlash ['/' :: base, a, b] = '/' :: joinSlash [base, a, b] := rfl
  rw [hj, Clean_rooted_plain [base, a, b] (List.cons_ne_nil _ _) (by
    intro e he
    simp only [List.mem_cons, List.mem_singleton, List.not_mem_nil, or_false] at he
    rcases he with rfl | rfl | rfl
    · exact hbase
    · exact ha
    · exact hb)]
  rfl

theorem Join_base_three_empty (base a : Str) (ha : Plain a) (hbase : Plain base) :
    Join ['/' :: base, a, []] = '/' :: (base ++ '/' :: a) := by
  have h2 := Join_base_two base a ha hbase
  unfold Join at h2 ⊢
  have hf : ['/' :: base, a, []].filter (fun e => decide (e ≠ []))
      = ['/' :: base, a].filter (fun e => decide (e ≠ [])) := by
    simp [List.filter]
  rw [hf]
  exact h2

theorem tmp_plain : Plain "tmp".toList := by
  refine ⟨by decide, by decide, by decide, by decide⟩

theorem mnt_plain : Plain "mnt".toList := by
  refine ⟨by decide, by decide, by decide, by decide⟩

theorem root_form (c : container) : c.root = "/mnt/".toList ++ c.name := by
  unfold container.root
  have h := Join_base_two "mnt".toList c.name (name_plain c) mnt_plain
  exact h

theorem backend_form (w : World) (c : container) (src : Str) :
    ∃ x, Slashy x ∧ c.backend w src = "/tmp/".toList ++ (c.name ++ x) := by
  unfold container.backend
  by_cases hh : c.hash w src = []
  · refine ⟨[], fun c hc => by simp at hc, ?_⟩
    rw [hh]
    have h := Join_base_three_empty "tmp".toList c.name (name_plain c) tmp_plain
    rw [List.append_nil]
    exact h
  · refine ⟨'/' :: c.hash w src, fun c hc => by simpa using hc.symm, ?_⟩
    exact Join_base_three "tmp".toList c.name _ (name_plain c) (hash_plain w c src hh) tmp_plain

theorem db_form (w : World) (c : container) (src : Str) :
    ∃ x, Slashy x ∧ c.db w src = "/tmp/".toList ++ (c.name ++ x) := by
  unfold container.db
  refine ⟨'/' :: (c.hash w src ++ ".db".toList), fun c hc => by simpa using hc.symm, ?_⟩
  exact Join_base_three "tmp".toList c.name _ (name_plain c) (hash_db_plain w c src) tmp_plain

/-- Two texts that begin with slash-free elements, each followed by nothing or by a
slash, are equal only when the elements are. -/
theorem first_element_eq (a b x y : Str) (ha : '/' ∉ a) (hb : '/' ∉ b)
    (hx : Slashy x) (hy : Slashy y) (h : a ++ x = b ++ y) : a = b := by
  induction a generalizing b with
  | nil =>
    cases b with
    | nil => rfl
    | cons d b' =>
      simp only [List.nil_append, List.cons_append] at h
      have : d = '/' := by
        have := hx d (by rw [h]; rfl)
        exact this
      exact absurd (by simp [this]) hb
  | cons c a' ih =>
    cases b with
    | nil =>
      simp only [List.nil_append, List.cons_append] at h
      have : c = '/' := hy c (by rw [← h]; rfl)
      exact absurd (by simp [this]) ha
    | cons d b' =>
      simp only [List.cons_append, List.cons.injEq] at h
      rw [h.1, ih b' (fun m => ha (List.mem_cons_of_mem _ m))
        (fun m => hb (List.mem_cons_of_mem _ m)) h.2]

theorem Slashy_append_slash (x t : Str) (hx : Slashy x) : Slashy (x ++ '/' :: t) := by
  intro c hc
  cases x with
  | nil => simpa using hc.symm
  | cons d x' => exact hx c (by simpa using hc)

/-- Paths below `/tmp` that begin with different slash-free elements are different and
neither lies inside the other. -/
theorem paths_apart (a b x y : Str) (ha : '/' ∉ a) (hb : '/' ∉ b) (hx : Slashy x)
    (hy : Slashy y) (hab : a ≠ b) :
    "/tmp/".toList ++ (a ++ x) ≠ "/tmp/".toList ++ (b ++ y) ∧
    ¬ isInside ("/tmp/".toList ++ (a ++ x)) ("/tmp/".toList ++ (b ++ y)) ∧
    ¬ isInside ("/tmp/".toList ++ (b ++ y)) ("/tmp/".toList ++ (a ++ x)) := by
  refine ⟨?_, ?_, ?_⟩
  · intro h
    exact hab (first_element_eq a b x y ha hb hx hy (List.append_cancel_left h))
  · intro h
    obtain ⟨t, ht⟩ := h
    have h3 : "/tmp/".toList ++ (b ++ (y ++ '/' :: t)) = "/tmp/".toList ++ (a ++ x) := by
      rw [← ht]
      simp
    have h2 : b ++ (y ++ '/' :: t) = a ++ x := List.append_cancel_left h3
    exact hab (first_element_eq b a _ x hb ha (Slashy_append_slash y t hy) hx h2).symm
  · intro h
    obtain ⟨t, ht⟩ := h
    have h3 : "/tmp/".toList ++ (a ++ (x ++ '/' :: t)) = "/tmp/".toList ++ (b ++ y) := by
      rw [← ht]
      simp
    have h2 : a ++ (x ++ '/' :: t) = b ++ y := List.append_cancel_left h3
    exact hab (first_element_eq a b _ y ha hb (Slashy_append_slash x t hx) hy h2)

/-- C7: containers with different ids have different names and different mount roots,
and the backend and metadata directories of the one, for any source, differ from those of
the other, for any source, and neither lies inside the other; containers with the same
id get the same backend and metadata directory for the same source. -/
theorem container_paths_disjoint (w : World) (c d : container) (s s' : Str) :
    (c.id ≠ d.id →
      c.name ≠ d.name ∧ c.root ≠ d.root ∧
      ∀ p ∈ [c.backend w s, c.db w s], ∀ q ∈ [d.backend w s', d.db w s'],
        p ≠ q ∧ ¬ isInside p q ∧ ¬ isInside q p) ∧
    (c.id = d.id → c.backend w s = d.backend w s ∧ c.db w s = d.db w s) := by
  constructor
  · intro hid
    have hname : c.name ≠ d.name := fun h => hid (name_injective c d h)
    refine ⟨hname, ?_, ?_⟩
    · rw [root_form, root_form]
      intro h
      exact hname (List.append_cancel_left h)
    · intro p hp q hq
      have hpf : ∃ x, Slashy x ∧ p = "/tmp/".toList ++ (c.name ++ x) := by
        simp only [List.mem_cons, List.mem_singleton, List.not_mem_nil, or_false] at hp
        rcases hp with rfl | rfl
        · exact backend_form w c s
        · exact db_form w c s
      have hqf : ∃ y, Slashy y ∧ q = "/tmp/".toList ++ (d.name ++ y) := by
        simp only [List.mem_cons, List.mem_singleton, List.not_mem_nil, or_false] at hq
        rcases hq with rfl | rfl
        · exact backend_form w d s'
        · exact db_form w d s'
      obtain ⟨x, hx, rfl⟩ := hpf
      obtain ⟨y, hy, rfl⟩ := hqf
      exact paths_apart c.name d.name x y (name_plain c).2.2.2 (name_plain d).2.2.2 hx hy hname
  · intro hid
    have hname : c.name = d.name := by unfold container.name; rw [hid]
    unfold container.backend container.db container.hash
    rw [hname]
    exact ⟨rfl, rfl⟩

/-- C7, witness: containers 1 and 2, with the sources `plist.tar` and `plist.tgz`. -/
theorem container_paths_disjoint_witness :
    (container.mk 1 ⟨"plist.tar".toList, [], []⟩).name
        ≠ (container.mk 2 ⟨"plist.tgz".toList, [], []⟩).name ∧
      (container.mk 1 ⟨"plist.tar".toList, [], []⟩).root
        ≠ (container.mk 2 ⟨"plist.tgz".toList, [], []⟩).root ∧
      ∀ p ∈ [(container.mk 1 ⟨"plist.tar".toList, [], []⟩).backend
                (exampleWorld [] ⟨[], none⟩ []) "plist.tar".toList,
             (container.mk 1 ⟨"plist.tar".toList, [], []⟩).db
                (exampleWorld [] ⟨[], none⟩ []) "plist.tar".toList],
        ∀ q ∈ [(container.mk 2 ⟨"plist.tgz".toList, [], []⟩).backend
                (exampleWorld [] ⟨[], none⟩ []) "plist.tgz".toList,
               (container.mk 2 ⟨"plist.tgz".toList, [], []⟩).db
                (exampleWorld [] ⟨[], none⟩ []) "plist.tgz".toList],
          p ≠ q ∧ ¬ isInside p q ∧ ¬ isInside q p :=
  (container_paths_disjoint (exampleWorld [] ⟨[], none⟩ [])
    (container.mk 1 ⟨"plist.tar".toList, [], []⟩) (container.mk 2 ⟨"plist.tgz".toList, [], []⟩)
    "plist.tar".toList "plist.tgz".toList).1 (by decide)

end Containers
